import Mathlib

/-!
Verification development for the gb-flamegraph profiling core.

The definitions below are a shallow embedding of the JavaScript sources:
  * `src/core/speedscope.js`  — trace emitter and `finalizeTrace`
  * `src/core/noi-parser.js`  — linker-map parser and region table
  * the benchmark runner      — PC resolver, call-stack engine, RETI handling

Modelling conventions:
  * JS numbers that hold cycle counts / addresses are embedded as `Int`
    (they are exact integers in every reachable execution); array indices
    and ROM banks as `Nat`.
  * JS arrays used as stacks (push/pop at the end) are embedded as `List`
    with the head as the stack top.
  * A JS `Map` is embedded as an association list; `Map.set` replaces the
    first binding of the key or appends a fresh binding.
  * The trace's event array is kept in append order: appending an event is
    `l ++ [e]`.
-/

namespace GBFlame

/-- Event tag of the speedscope evented format: `"O"` (open) or `"C"` (close).
The program only ever constructs these two (via `addOpenEvent` /
`addCloseEvent`), matching the data model `type: 'O'|'C'`. -/
inductive EType where
  | O : EType
  | C : EType
deriving DecidableEq

/-- A speedscope event. Open events carry no `start`; close events record
their paired open's cycle in `start` (see `addCloseEvent`). -/
structure Event where
  type : EType
  «at» : Int
  frame : Nat
  start : Option Int
deriving DecidableEq

/-- The profile of a trace: `profiles[0].events` and `profiles[0].endValue`.
(The `shared.frames` name table and the `captures` list do not participate
in any claim; events reference symbols by index, as in the source.) -/
structure Trace where
  events : List Event
  endValue : Int
deriving DecidableEq

/-- `addOpenEvent(trace, frameIndex, at)`: append an O event. -/
def addOpenEvent (t : Trace) (frameIndex : Nat) (a : Int) : Trace :=
  { t with events := t.events ++ [⟨EType.O, a, frameIndex, none⟩] }

/-- `addCloseEvent(trace, frameIndex, at, start)`: append a C event carrying
the given timestamp and its open's cycle, both stored unchanged. -/
def addCloseEvent (t : Trace) (frameIndex : Nat) (a start : Int) : Trace :=
  { t with events := t.events ++ [⟨EType.C, a, frameIndex, some start⟩] }

/-- The sort comparator of `finalizeTrace` as a ≤ test: earlier `at` first;
on an `at` tie, equal types tie and otherwise the O comes first. -/
def evLE (a b : Event) : Bool :=
  a.«at» < b.«at» || (a.«at» == b.«at» && (a.type == b.type || a.type == EType.O))

/-- `events.sort(comparator)`. JS `Array.prototype.sort` is a stable sort,
and a stable sort's output is uniquely determined by the comparator, so any
stable sorting algorithm is a faithful embedding; we use the (stable)
insertion sort, which the kernel can evaluate. -/
def sortEvents (l : List Event) : List Event :=
  l.insertionSort (fun a b => evLE a b = true)

/-- `stackByFrame.get(f)` on the association-list embedding of the Map. -/
def lookupStack (m : List (Nat × List Nat)) (f : Nat) : Option (List Nat) :=
  (m.find? (fun p => p.1 == f)).map (fun p => p.2)

/-- `stackByFrame.get(f) ?? []`. -/
def stackOf (m : List (Nat × List Nat)) (f : Nat) : List Nat :=
  (lookupStack m f).getD []

/-- `stackByFrame.set(f, v)`. -/
def setStack (m : List (Nat × List Nat)) (f : Nat) (v : List Nat) :
    List (Nat × List Nat) :=
  match m with
  | [] => [(f, v)]
  | p :: rest => if p.1 == f then (f, v) :: rest else p :: setStack rest f v

/-- How the per-frame stacks of open-event indices evolve at event `e`
sitting at index `pos` of the (sorted) event array: an O pushes its index,
a C pops the matching frame's stack when non-empty. -/
def stacksStep (m : List (Nat × List Nat)) (pos : Nat) (e : Event) :
    List (Nat × List Nat) :=
  match e.type with
  | EType.O => setStack m e.frame (pos :: stackOf m e.frame)
  | EType.C =>
    match lookupStack m e.frame with
    | some (_ :: rest) => setStack m e.frame rest
    | _ => m

/-- How the `include` marks evolve at event `e` at index `pos`: a C that
pops open index `o` and satisfies `at ≥ captureStartTime` marks both `o`
and itself; everything else leaves the marks alone. -/
def incStep (cs : Int) (m : List (Nat × List Nat)) (pos : Nat)
    (inc : Nat → Bool) (e : Event) : Nat → Bool :=
  match e.type with
  | EType.O => inc
  | EType.C =>
    match lookupStack m e.frame with
    | some (o :: _) =>
      if cs ≤ e.«at» then fun j => inc j || j == o || j == pos else inc
    | _ => inc

/-- State of the filtering loop of `finalizeTrace`: the index `pos` of the
next event, the per-frame stacks, and the `include` marks so far. -/
structure FilterSt where
  pos : Nat
  openStacks : List (Nat × List Nat)
  inc : Nat → Bool

/-- One iteration of the filtering loop. -/
def filterStep (cs : Int) (st : FilterSt) (e : Event) : FilterSt :=
  { pos := st.pos + 1
    openStacks := stacksStep st.openStacks st.pos e
    inc := incStep cs st.openStacks st.pos st.inc e }

/-- The filtering loop over a list of events. -/
def filterRun (cs : Int) (st : FilterSt) (l : List Event) : FilterSt :=
  l.foldl (filterStep cs) st

/-- After the loop, any open index still on some stack is also included
("include any remaining opens that were never closed"). -/
def incEnd (st : FilterSt) : Nat → Bool :=
  fun j => st.inc j || (st.openStacks.flatMap (fun p => p.2)).contains j

/-- Initial loop state: first index 0, empty Map, all marks false. -/
def initSt : FilterSt := ⟨0, [], fun _ => false⟩

/-- The final `include` marks computed by `finalizeTrace` for an event list
and a capture start cycle. -/
def finalizeInc (cs : Int) (l : List Event) : Nat → Bool :=
  incEnd (filterRun cs initSt l)

/-- `events.filter((_, idx) => include[idx])`, with `pos` the index of the
first event of the remaining list. -/
def selectIdx (g : Nat → Bool) : List Event → Nat → List Event
  | [], _ => []
  | e :: rest, pos =>
    if g pos then e :: selectIdx g rest (pos + 1) else selectIdx g rest (pos + 1)

/-- The events `finalizeTrace` retains from an (already sorted) list. -/
def retainedEvents (cs : Int) (l : List Event) : List Event :=
  selectIdx (finalizeInc cs l) l 0

/-- `Math.max(...includedEvents.map(e => e.at))` over a non-empty list
(`finalizeTrace` does not touch `endValue` when the list is empty). -/
def maxAt : List Event → Int
  | [] => 0
  | e :: rest => rest.foldl (fun m x => max m x.«at») e.«at»

/-- `finalizeTrace(trace, captureStartTime)` with a non-null capture start:
sort, filter by the include marks, and recompute `endValue` when events
remain. -/
def finalizeTrace (cs : Int) (t : Trace) : Trace :=
  let es := retainedEvents cs (sortEvents t.events)
  { events := es
    endValue := if es.isEmpty then t.endValue else maxAt es }

/-- The O/C matching relation of the same walk, made explicit: every C that
pops an open yields a triple `(open index, close index, close at)`. The
stack evolution is literally `stacksStep`, shared with the filter loop. -/
def matchNew (m : List (Nat × List Nat)) (pos : Nat) :
    List Event → List (Nat × Nat × Int)
  | [] => []
  | e :: rest =>
    let tail := matchNew (stacksStep m pos e) (pos + 1) rest
    match e.type, lookupStack m e.frame with
    | EType.C, some (o :: _) => (o, pos, e.«at») :: tail
    | _, _ => tail

/-- Matched (O, C) pairs of an event list, walked from the start. -/
def matchPairs (l : List Event) : List (Nat × Nat × Int) := matchNew [] 0 l

/-- The per-frame stacks after walking a whole event list. -/
def stacksRun (m : List (Nat × List Nat)) (pos : Nat) :
    List Event → List (Nat × List Nat)
  | [] => m
  | e :: rest => stacksRun (stacksStep m pos e) (pos + 1) rest

/-- Indices of O events left unmatched at the end of the walk. -/
def leftoverOpens (l : List Event) : List Nat :=
  (stacksRun [] 0 l).flatMap (fun p => p.2)

/-- One step of re-walking an event list with a per-frame depth counter:
a C at depth 0 is an unmatched close. -/
def rewalkStep : ((Nat → Nat) × Nat) → Event → ((Nat → Nat) × Nat)
  | (d, bad), e =>
    match e.type with
    | EType.O => (Function.update d e.frame (d e.frame + 1), bad)
    | EType.C =>
      if d e.frame == 0 then (d, bad + 1)
      else (Function.update d e.frame (d e.frame - 1), bad)

/-- Number of unmatched closes met when walking an event list in order with
a per-frame-index LIFO. -/
def unmatchedCloses (l : List Event) : Nat :=
  (l.foldl rewalkStep (fun _ => 0, 0)).2

/-! ### noi-parser.js: symbol map and region table -/

/-- One entry of the fixed `INTERRUPTS` table. -/
structure InterruptDef where
  addr : Int
  name : String
  symbol : String
deriving DecidableEq

/-- The five interrupt vectors, in source order. -/
def INTERRUPTS : List InterruptDef :=
  [⟨0x40, "VBL", "[INTERRUPT] VBL"⟩,
   ⟨0x48, "LCD", "[INTERRUPT] LCD"⟩,
   ⟨0x50, "TIM", "[INTERRUPT] TIM"⟩,
   ⟨0x58, "SIO", "[INTERRUPT] SIO"⟩,
   ⟨0x60, "JOY", "[INTERRUPT] JOY"⟩]

/-- A parsed symbol `{symbol, addr, bank}` as produced by `parseNoi`. -/
structure Sym where
  symbol : String
  addr : Int
  bank : Nat
deriving DecidableEq

/-- A function region `{symbol, addr, bank, end}` as produced by
`generateFunctionRegions`. -/
structure Region where
  symbol : String
  addr : Int
  bank : Nat
  «end» : Int
deriving DecidableEq

/-- The whitespace class of JS `trim` / `\s`, restricted to ASCII. -/
def isWS (c : Char) : Bool :=
  c == ' ' || c == '\t' || c == '\r' || c == '\n' ||
  c == Char.ofNat 11 || c == Char.ofNat 12

/-- `text.split("\n")` on the character list of the text. -/
def splitLines (cs : List Char) : List (List Char) :=
  cs.splitOnP (fun c => c == '\n')

/-- `line.trim()`. -/
def trimChars (cs : List Char) : List Char :=
  ((cs.dropWhile isWS).reverse.dropWhile isWS).reverse

/-- `trimmed.split(/\s+/)` on a trimmed line: whitespace-separated words. -/
def splitWords (cs : List Char) : List (List Char) :=
  (cs.splitOnP isWS).filter (fun w => !w.isEmpty)

/-- Substring test (an unanchored regex literal match). -/
def containsSub (needle : List Char) : List Char → Bool
  | [] => needle.isEmpty
  | c :: rest => needle.isPrefixOf (c :: rest) || containsSub needle rest

/-- The accept test `/^DEF (_|F|\..*ISR|\.remove_|\.add_|\.mod|\.div)/` on
the raw line. -/
def acceptLine (line : List Char) : Bool :=
  ("DEF _".toList).isPrefixOf line ||
  ("DEF F".toList).isPrefixOf line ||
  (("DEF .".toList).isPrefixOf line && containsSub ("ISR".toList) (line.drop 5)) ||
  ("DEF .remove_".toList).isPrefixOf line ||
  ("DEF .add_".toList).isPrefixOf line ||
  ("DEF .mod".toList).isPrefixOf line ||
  ("DEF .div".toList).isPrefixOf line

/-- The chain of reject tests: any match skips the line. -/
def rejectLine (line : List Char) : Bool :=
  containsSub ("_REG".toList) line ||
  containsSub ("_rRAM".toList) line ||
  containsSub ("_rROM".toList) line ||
  containsSub ("_rMBC".toList) line ||
  containsSub ("__start_save".toList) line ||
  containsSub ("___bank_".toList) line ||
  containsSub ("___func_".toList) line ||
  containsSub ("___mute_mask_".toList) line

/-- Value of a single hex digit. -/
def hexDigit? (c : Char) : Option Nat :=
  if '0' ≤ c ∧ c ≤ '9' then some (c.toNat - '0'.toNat)
  else if 'a' ≤ c ∧ c ≤ 'f' then some (c.toNat - 'a'.toNat + 10)
  else if 'A' ≤ c ∧ c ≤ 'F' then some (c.toNat - 'A'.toNat + 10)
  else none

/-- Longest hex-digit run at the head of the list, `none` when empty. -/
def hexRun : List Char → Option Nat → Option Nat
  | [], acc => acc
  | c :: rest, acc =>
    match hexDigit? c with
    | some d => hexRun rest (some (acc.getD 0 * 16 + d))
    | none => acc

/-- `parseInt(str, 16)`: skip whitespace, optional sign, optional `0x`/`0X`,
then the longest hex-digit run; `none` models NaN (no digits). -/
def parseIntHex (cs : List Char) : Option Int :=
  let t := cs.dropWhile isWS
  let p : Bool × List Char :=
    match t with
    | '-' :: r => (true, r)
    | '+' :: r => (false, r)
    | _ => (false, t)
  let u := if ("0x".toList).isPrefixOf p.2 || ("0X".toList).isPrefixOf p.2
           then p.2.drop 2 else p.2
  match hexRun u none with
  | some n => some (if p.1 then -(n : Int) else (n : Int))
  | none => none

/-- `fullAddr & 0xffff` in JS number semantics: the low 16 bits of the
32-bit two's-complement truncation; NaN (`none`) gives 0. -/
def jsAnd16 : Option Int → Nat
  | none => 0
  | some n => (n % 4294967296).toNat % 65536

/-- `(fullAddr >> 16) & 0xff` in JS number semantics: bits 16–23 of the
32-bit truncation; NaN gives 0. -/
def jsBankBits : Option Int → Nat
  | none => 0
  | some n => (n % 4294967296).toNat / 65536 % 256

/-- `symbol.replace(/^F([^$]+)\$/, "")`: strip a leading `F…$` group. -/
def stripFGroup (cs : List Char) : List Char :=
  match cs with
  | 'F' :: rest =>
    let pre := rest.takeWhile (fun c => c ≠ '$')
    if pre.isEmpty then cs
    else
      match rest.drop pre.length with
      | '$' :: tail => tail
      | _ => cs
  | _ => cs

/-- `.replace(/\$.*/, "")`: truncate at the first `$`. -/
def truncDollar (cs : List Char) : List Char :=
  cs.takeWhile (fun c => c ≠ '$')

/-- The symbol canonicalization applied to the second token. -/
def cleanSymbol (cs : List Char) : List Char :=
  truncDollar (stripFGroup cs)

/-- The per-line loop of `parseNoi`, threading the `usedAddr` key set
(dedup by `(bank, addr)`): accepted lines yield a symbol unless their key
was already used. -/
def parseNoiAux : List (List Char) → List (Nat × Nat) → List Sym
  | [], _ => []
  | line :: rest, used =>
    if acceptLine line ∧ ¬ rejectLine line then
      let ts := splitWords (trimChars line)
      let fullAddr : Option Int :=
        match ts.get? 2 with
        | some a => parseIntHex a
        | none => none
      let addr : Nat := jsAnd16 fullAddr
      let bank : Nat := if addr < 0x4000 then 0 else jsBankBits fullAddr
      if (bank, addr) ∈ used then parseNoiAux rest used
      else
        ⟨String.mk (cleanSymbol (ts.getD 1 [])), (addr : Int), bank⟩ ::
          parseNoiAux rest ((bank, addr) :: used)
    else parseNoiAux rest used

/-- `parseNoi(text)`: the five interrupt entries (bank 0) first, then one
symbol per accepted, non-duplicate line. -/
def parseNoi (text : String) : List Sym :=
  INTERRUPTS.map (fun i => Sym.mk i.symbol i.addr 0) ++
    parseNoiAux (splitLines text.toList) []

/-- The Map keys of `bankGroups` in first-appearance order. -/
def firstKeys : List Sym → List Nat
  | [] => []
  | s :: rest => s.bank :: (firstKeys rest).filter (fun b => b ≠ s.bank)

/-- `bank === 0 ? 0x3fff : 0x7fff`. -/
def bankMax (bank : Nat) : Int := if bank == 0 then 0x3fff else 0x7fff

/-- The sort comparator `(a, b) => a.addr - b.addr` as a ≤ test. -/
def symLE (a b : Sym) : Bool := a.addr ≤ b.addr

/-- The end-address assignment inside one bank: positions `0 … n−2` get
`min(addrMax, next.addr − 1)`, the last gets `addrMax`. -/
def assignEnds (addrMax : Int) : List Sym → List Region
  | [] => []
  | [s] => [⟨s.symbol, s.addr, s.bank, addrMax⟩]
  | s :: t :: rest =>
    ⟨s.symbol, s.addr, s.bank, min addrMax (t.addr - 1)⟩ ::
      assignEnds addrMax (t :: rest)

/-- `generateFunctionRegions(noiLookup)`: group by bank in first-appearance
order, stably sort each group by `addr` (see `sortEvents` on the choice of
stable sorting algorithm), assign ends, and concatenate. -/
def generateFunctionRegions (l : List Sym) : List Region :=
  (firstKeys l).flatMap (fun b =>
    assignEnds (bankMax b)
      ((l.filter (fun s => s.bank == b)).insertionSort (fun a b => symLE a b = true)))

/-! ### The benchmark runner: PC resolver and call-stack engine

The runner fields that the claims touch are `fnStack`, `interruptStack`,
`currentFnRegion` and the trace's event list. The immutable `noiIndex`
symbol-to-index map and `regionsByBank` table are passed as parameters, and
`getGBTime()` — constant within one hook invocation — as a `clock` argument.
`newFn === this.currentFnRegion` compares object identity in JS; since the
region table never holds two structurally equal regions, structural
equality is a faithful embedding of it. -/

/-- A call-stack frame as pushed by `pushFrame` / `onInterrupt`. -/
structure Frame where
  symbol : String
  addr : Int
  clock : Int
  childPushed : Bool
  openPrinted : Bool
  indent : Nat
deriving DecidableEq

/-- The mutable engine state. Stacks keep their top at the list head. -/
structure EngineState where
  fnStack : List Frame
  interruptStack : List InterruptDef
  currentFnRegion : Option Region
  events : List Event
deriving DecidableEq

/-- `IGNORE_SYMBOLS`. -/
def IGNORE_SYMBOLS : List String := [".add_VBL", ".add_int", "_display_off"]

/-- The RETI opcode. -/
def RETI : Nat := 0xd9

/-- `getCurrentFunctionRegion(pc, bank)`: the sticky cached-region check,
then a linear scan of the target bank's regions. -/
def getCurrentFunctionRegion (rbb : Nat → List Region) (cur : Option Region)
    (pc : Int) (bank : Nat) : Option Region :=
  let fallback :=
    let targetBank := if pc < 0x4000 then 0 else bank
    (rbb targetBank).find? (fun fn => decide (fn.addr ≤ pc) && decide (pc ≤ fn.«end»))
  match cur with
  | some fn =>
    if fn.addr ≤ pc ∧ pc ≤ fn.«end» ∧ (pc < 0x4000 ∨ fn.bank = bank) then some fn
    else fallback
  | none => fallback

/-- The O event `addOpenEvent(speedscope, noiIndex[sym], clock)` appends. -/
def openEv (idx : String → Nat) (sym : String) (clock : Int) : Event :=
  ⟨EType.O, clock, idx sym, none⟩

/-- The C event `addCloseEvent(speedscope, noiIndex[sym], a, s)` appends. -/
def closeEv (idx : String → Nat) (sym : String) (a s : Int) : Event :=
  ⟨EType.C, a, idx sym, some s⟩

/-- `pushFrame(fn)`: mark the parent, push a frame whose `indent` is the
depth before the push, and emit an open event. -/
def pushFrame (idx : String → Nat) (clock : Int) (fn : Region)
    (st : EngineState) : EngineState :=
  let fnStack' :=
    match st.fnStack with
    | [] => [Frame.mk fn.symbol fn.addr clock false false 0]
    | parent :: rest =>
      Frame.mk fn.symbol fn.addr clock false false st.fnStack.length ::
        { parent with childPushed := true, openPrinted := true } :: rest
  { st with fnStack := fnStack'
            events := st.events ++ [openEv idx fn.symbol clock] }

/-- `fnStackContains(searchFn)`: membership by symbol string. -/
def fnStackContains (st : EngineState) (searchFn : Region) : Bool :=
  st.fnStack.any (fun f => f.symbol == searchFn.symbol)

/-- The same membership test against a bare symbol (used by the interrupt
unwind, whose argument is an `INTERRUPTS` entry). -/
def containsSym (fs : List Frame) (sym : String) : Bool :=
  fs.any (fun f => f.symbol == sym)

/-- The pop loop of `popFramesUntil`: pop while the top frame's symbol
differs from the target (a `none` target — `popFramesUntil()` at shutdown —
never matches, so everything pops). Closes carry
`Math.max(clockNow, popped.clock)` and the popped frame's clock. -/
def popFramesUntilLoop (idx : String → Nat) (clock : Int)
    (target : Option String) : List Frame → List Frame × List Event
  | [] => ([], [])
  | fr :: rest =>
    if target == some fr.symbol then (fr :: rest, [])
    else
      let p := popFramesUntilLoop idx clock target rest
      (p.1, closeEv idx fr.symbol (max clock fr.clock) fr.clock :: p.2)

/-- `popFramesUntil(fn)`: with a present target that is not on the stack,
return unchanged; otherwise run the pop loop. -/
def popFramesUntil (idx : String → Nat) (clock : Int) (fn : Option Region)
    (st : EngineState) : EngineState :=
  match fn with
  | some f =>
    if fnStackContains st f then
      let p := popFramesUntilLoop idx clock (some f.symbol) st.fnStack
      { st with fnStack := p.1, events := st.events ++ p.2 }
    else st
  | none =>
    let p := popFramesUntilLoop idx clock none st.fnStack
    { st with fnStack := p.1, events := st.events ++ p.2 }

/-- The pop loop of `popFramesIncluding`: pop and close every frame, and
stop after popping one whose symbol matches. Closes carry the raw
`clockNow` (no `Math.max`) and the popped frame's clock. -/
def popFramesIncludingLoop (idx : String → Nat) (clock : Int) (sym : String) :
    List Frame → List Frame × List Event
  | [] => ([], [])
  | fr :: rest =>
    let ev := closeEv idx fr.symbol clock fr.clock
    if fr.symbol == sym then (rest, [ev])
    else
      let p := popFramesIncludingLoop idx clock sym rest
      (p.1, ev :: p.2)

/-- `popFramesIncluding(fn)` for a present `fn` (its only call site passes
an `INTERRUPTS` entry): return unchanged when the symbol is not on the
stack, else run the pop loop. -/
def popFramesIncluding (idx : String → Nat) (clock : Int) (sym : String)
    (st : EngineState) : EngineState :=
  if containsSym st.fnStack sym then
    let p := popFramesIncludingLoop idx clock sym st.fnStack
    { st with fnStack := p.1, events := st.events ++ p.2 }
  else st

/-- The `while (interruptStack.length > 0)` loop of `popInterrupts`,
recursing on the interrupts still to unwind (topmost first). -/
def popInterruptsLoop (idx : String → Nat) (clock : Int) :
    List InterruptDef → EngineState → EngineState
  | [], st => st
  | i :: rest, st =>
    popInterruptsLoop idx clock rest (popFramesIncluding idx clock i.symbol st)

/-- `popInterrupts()`: drain the whole interrupt stack, unwinding frames
up to and including each interrupt's frame. -/
def popInterrupts (idx : String → Nat) (clock : Int) (st : EngineState) :
    EngineState :=
  popInterruptsLoop idx clock st.interruptStack { st with interruptStack := [] }

/-- The `onAfterInstruction` hook: RETI triggers `popInterrupts`; otherwise
resolve the PC and push, pop-to, or ignore exactly as the source does.
(The trailing `currentFnRegion = null` of the source is unreachable: when
the resolver returns a region, one of the two PC cases always returns.) -/
def onAfterInstruction (idx : String → Nat) (rbb : Nat → List Region)
    (clock : Int) (opcode : Nat) (pc : Int) (bank : Nat)
    (st : EngineState) : EngineState :=
  if opcode == RETI then popInterrupts idx clock st
  else
    match getCurrentFunctionRegion rbb st.currentFnRegion pc bank with
    | none => st
    | some newFn =>
      if st.currentFnRegion == some newFn then st
      else if IGNORE_SYMBOLS.contains newFn.symbol then st
      else if pc == newFn.addr then
        { pushFrame idx clock newFn st with currentFnRegion := some newFn }
      else if fnStackContains st newFn then
        { popFramesUntil idx clock (some newFn) st with
            currentFnRegion := some newFn }
      else if st.interruptStack.length > 0 then st
      else if pc ≥ 0x4000 then
        { pushFrame idx clock newFn st with currentFnRegion := some newFn }
      else { st with currentFnRegion := some newFn }

/-! ### Helper lemmas about the engine -/

lemma popFramesIncluding_interruptStack (idx : String → Nat) (clock : Int)
    (sym : String) (st : EngineState) :
    (popFramesIncluding idx clock sym st).interruptStack = st.interruptStack := by
  unfold popFramesIncluding
  split <;> rfl

lemma popInterruptsLoop_interruptStack (idx : String → Nat) (clock : Int) :
    ∀ (is : List InterruptDef) (st : EngineState),
      (popInterruptsLoop idx clock is st).interruptStack = st.interruptStack
  | [], _ => rfl
  | i :: rest, st => by
    rw [popInterruptsLoop, popInterruptsLoop_interruptStack idx clock rest,
      popFramesIncluding_interruptStack]

lemma containsSym_of_mem {fs : List Frame} {fr : Frame} {sym : String}
    (hm : fr ∈ fs) (hs : fr.symbol = sym) : containsSym fs sym = true := by
  simp only [containsSym, List.any_eq_true]
  exact ⟨fr, hm, by simp [hs]⟩

lemma popFramesIncludingLoop_spec (idx : String → Nat) (clock : Int)
    (sym : String) :
    ∀ (pre : List Frame) (fr : Frame) (rest : List Frame),
      fr.symbol = sym → (∀ f ∈ pre, f.symbol ≠ sym) →
      popFramesIncludingLoop idx clock sym (pre ++ fr :: rest) =
        (rest, pre.map (fun f => closeEv idx f.symbol clock f.clock) ++
          [closeEv idx fr.symbol clock fr.clock])
  | [], fr, rest, hfr, _ => by
    simp [popFramesIncludingLoop, hfr]
  | f :: pre, fr, rest, hfr, hpre => by
    have hf : f.symbol ≠ sym := hpre f (List.mem_cons_self f pre)
    have ih := popFramesIncludingLoop_spec idx clock sym pre fr rest hfr
      (fun g hg => hpre g (List.mem_cons_of_mem f hg))
    simp [popFramesIncludingLoop, hf, ih]

lemma popFramesUntilLoop_spec (idx : String → Nat) (clock : Int)
    (sym : String) :
    ∀ (pre : List Frame) (fr : Frame) (rest : List Frame),
      fr.symbol = sym → (∀ f ∈ pre, f.symbol ≠ sym) →
      popFramesUntilLoop idx clock (some sym) (pre ++ fr :: rest) =
        (fr :: rest,
         pre.map (fun f => closeEv idx f.symbol (max clock f.clock) f.clock))
  | [], fr, rest, hfr, _ => by
    simp [popFramesUntilLoop, hfr]
  | f :: pre, fr, rest, hfr, hpre => by
    have hf : f.symbol ≠ sym := hpre f (List.mem_cons_self f pre)
    have ih := popFramesUntilLoop_spec idx clock sym pre fr rest hfr
      (fun g hg => hpre g (List.mem_cons_of_mem f hg))
    simp [popFramesUntilLoop, Ne.symm hf, ih]

lemma popFramesUntilLoop_closes_ge (idx : String → Nat) (clock : Int)
    (target : Option String) :
    ∀ (fs : List Frame) (e : Event), e ∈ (popFramesUntilLoop idx clock target fs).2 →
      ∀ s : Int, e.start = some s → s ≤ e.«at»
  | [], e, he => by simp [popFramesUntilLoop] at he
  | fr :: rest, e, he => by
    rw [popFramesUntilLoop] at he
    split at he
    · simp at he
    · simp only [List.mem_cons] at he
      rcases he with he | he
      · intro s hs
        subst he
        simp only [closeEv] at hs ⊢
        cases hs
        exact le_max_right _ _
      · exact popFramesUntilLoop_closes_ge idx clock target rest e he

/-! ### C2 -/

/-- C2, counterexample: the claim says every close operation appends a C
event whose timestamp equals `max(at, open_at)`. The emitter stores the
given `at` unchanged: `addCloseEvent` with `at = 0`, `open_at = 5` appends
an event with timestamp 0, not `max 0 5 = 5`. -/
theorem C2_counterexample :
    (addCloseEvent ⟨[], 0⟩ 0 0 5).events = [⟨EType.C, 0, 0, some 5⟩] ∧
    (0 : Int) ≠ max 0 5 := by
  constructor
  · rfl
  · decide

/-- C2, amended: `addCloseEvent` appends the C event with the given `at`
stored unchanged, so its timestamp equals `max(at, open_at)` exactly when
`at ≥ open_at`; the `Math.max` clamp lives at the `popFramesUntil` call
site, whose emitted closes therefore always satisfy `at ≥ open.at`
unconditionally. -/
theorem C2_close_timestamp :
    (∀ (t : Trace) (i : Nat) (a s : Int), s ≤ a →
      (addCloseEvent t i a s).events = t.events ++ [⟨EType.C, max a s, i, some s⟩]) ∧
    (∀ (idx : String → Nat) (clock : Int) (target : Option String)
        (fs : List Frame), ∀ e ∈ (popFramesUntilLoop idx clock target fs).2,
      ∀ s : Int, e.start = some s → s ≤ e.«at») := by
  refine ⟨fun t i a s h => ?_, fun idx clock target fs e he => ?_⟩
  · simp [addCloseEvent, max_eq_left h]
  · exact popFramesUntilLoop_closes_ge idx clock target fs e he

/-- C2 witness. -/
theorem C2_witness :
    (5 : Int) ≤ 9 ∧
    (addCloseEvent ⟨[], 0⟩ 3 9 5).events = [] ++ [⟨EType.C, max 9 5, 3, some 5⟩] :=
  ⟨by decide, C2_close_timestamp.1 ⟨[], 0⟩ 3 9 5 (by decide)⟩

/-! ### C7 -/

/-- C7: processing a RETI opcode while the interrupt stack is empty leaves
the engine state — call stack, interrupt stack, cached region and trace —
entirely unchanged; no event is emitted. -/
theorem C7_reti_empty_interrupt_stack (idx : String → Nat)
    (rbb : Nat → List Region) (clock : Int) (pc : Int) (bank : Nat)
    (st : EngineState) (h : st.interruptStack = []) :
    onAfterInstruction idx rbb clock RETI pc bank st = st := by
  obtain ⟨fns, ints, cur, evs⟩ := st
  simp only [EngineState.mk.injEq] at h ⊢
  subst h
  simp [onAfterInstruction, popInterrupts, popInterruptsLoop]

/-- C7 witness. -/
theorem C7_witness :
    (EngineState.mk [⟨"_main", 0x150, 7, false, false, 0⟩] [] none []).interruptStack
      = [] ∧
    onAfterInstruction (fun _ => 0) (fun _ => []) 21 RETI 0x200 1
        ⟨[⟨"_main", 0x150, 7, false, false, 0⟩], [], none, []⟩ =
      ⟨[⟨"_main", 0x150, 7, false, false, 0⟩], [], none, []⟩ :=
  ⟨rfl, C7_reti_empty_interrupt_stack (fun _ => 0) (fun _ => []) 21 0x200 1 _ rfl⟩

/-! ### C1 -/

/-- C1, counterexample: with two interrupts in flight (TIM nested inside
VBL), a single RETI empties the whole interrupt stack and closes both
interrupt frames, instead of unwinding only the topmost interrupt and
leaving `[VBL]` in flight as the claim requires. -/
theorem C1_counterexample :
    (onAfterInstruction (fun _ => 0) (fun _ => []) 20 RETI 0 0
        ⟨[⟨"[INTERRUPT] TIM", 0x50, 10, false, false, 1⟩,
          ⟨"[INTERRUPT] VBL", 0x40, 5, false, false, 0⟩],
         [⟨0x50, "TIM", "[INTERRUPT] TIM"⟩, ⟨0x40, "VBL", "[INTERRUPT] VBL"⟩],
         none, []⟩).interruptStack = [] ∧
    (onAfterInstruction (fun _ => 0) (fun _ => []) 20 RETI 0 0
        ⟨[⟨"[INTERRUPT] TIM", 0x50, 10, false, false, 1⟩,
          ⟨"[INTERRUPT] VBL", 0x40, 5, false, false, 0⟩],
         [⟨0x50, "TIM", "[INTERRUPT] TIM"⟩, ⟨0x40, "VBL", "[INTERRUPT] VBL"⟩],
         none, []⟩).interruptStack ≠ [⟨0x40, "VBL", "[INTERRUPT] VBL"⟩] ∧
    (onAfterInstruction (fun _ => 0) (fun _ => []) 20 RETI 0 0
        ⟨[⟨"[INTERRUPT] TIM", 0x50, 10, false, false, 1⟩,
          ⟨"[INTERRUPT] VBL", 0x40, 5, false, false, 0⟩],
         [⟨0x50, "TIM", "[INTERRUPT] TIM"⟩, ⟨0x40, "VBL", "[INTERRUPT] VBL"⟩],
         none, []⟩).events.length = 2 := by
  refine ⟨rfl, by decide, rfl⟩

/-- C1, amended: a RETI unwinds **every** in-flight interrupt, not just the
topmost one: it drains the whole interrupt stack, topmost first, popping
(and closing, at the current cycle) call-stack frames up to and including
the topmost frame bearing each interrupt's symbol. With exactly one
interrupt in flight this coincides with the claimed behavior, characterized
in the second conjunct. -/
theorem C1_reti_unwinds_all_interrupts :
    (∀ (idx : String → Nat) (rbb : Nat → List Region) (clock pc : Int)
        (bank : Nat) (st : EngineState),
      (onAfterInstruction idx rbb clock RETI pc bank st).interruptStack = []) ∧
    (∀ (idx : String → Nat) (rbb : Nat → List Region) (clock pc : Int)
        (bank : Nat) (st : EngineState) (i : InterruptDef)
        (pre : List Frame) (fr : Frame) (rest : List Frame),
      st.interruptStack = [i] →
      st.fnStack = pre ++ fr :: rest →
      fr.symbol = i.symbol →
      (∀ f ∈ pre, f.symbol ≠ i.symbol) →
      onAfterInstruction idx rbb clock RETI pc bank st =
        { st with
            fnStack := rest
            interruptStack := []
            events := st.events ++
              (pre.map (fun f => closeEv idx f.symbol clock f.clock) ++
                [closeEv idx fr.symbol clock fr.clock]) }) := by
  constructor
  · intro idx rbb clock pc bank st
    have h1 : onAfterInstruction idx rbb clock RETI pc bank st =
        popInterrupts idx clock st := by
      simp [onAfterInstruction]
    rw [h1, popInterrupts, popInterruptsLoop_interruptStack]
  · intro idx rbb clock pc bank st i pre fr rest hint hfn hfr hpre
    have h1 : onAfterInstruction idx rbb clock RETI pc bank st =
        popInterrupts idx clock st := by
      simp [onAfterInstruction]
    rw [h1, popInterrupts, hint, popInterruptsLoop, popInterruptsLoop]
    have hmem : fr ∈ st.fnStack := by
      rw [hfn]; exact List.mem_append_right pre (List.mem_cons_self fr rest)
    have hc : containsSym st.fnStack i.symbol = true := containsSym_of_mem hmem hfr
    rw [popFramesIncluding, if_pos hc]
    simp only [hfn,
      popFramesIncludingLoop_spec idx clock i.symbol pre fr rest hfr hpre]

/-- C1 amended-theorem witness: one VBL interrupt in flight below one
ordinary frame; the RETI closes the ordinary frame and the VBL frame and
empties the interrupt stack. -/
theorem C1_witness :
    (EngineState.mk
        [⟨"_irq_child", 0x200, 12, false, false, 1⟩,
         ⟨"[INTERRUPT] VBL", 0x40, 5, false, false, 0⟩]
        [⟨0x40, "VBL", "[INTERRUPT] VBL"⟩] none []).interruptStack =
      [⟨0x40, "VBL", "[INTERRUPT] VBL"⟩] ∧
    onAfterInstruction (fun _ => 1) (fun _ => []) 30 RETI 0 0
        ⟨[⟨"_irq_child", 0x200, 12, false, false, 1⟩,
          ⟨"[INTERRUPT] VBL", 0x40, 5, false, false, 0⟩],
         [⟨0x40, "VBL", "[INTERRUPT] VBL"⟩], none, []⟩ =
      ⟨[], [],
       none,
       [] ++ ([closeEv (fun _ => 1) "_irq_child" 30 12] ++
         [closeEv (fun _ => 1) "[INTERRUPT] VBL" 30 5])⟩ := by
  refine ⟨rfl, ?_⟩
  exact C1_reti_unwinds_all_interrupts.2 (fun _ => 1) (fun _ => []) 30 0 0
    ⟨[⟨"_irq_child", 0x200, 12, false, false, 1⟩,
      ⟨"[INTERRUPT] VBL", 0x40, 5, false, false, 0⟩],
     [⟨0x40, "VBL", "[INTERRUPT] VBL"⟩], none, []⟩
    ⟨0x40, "VBL", "[INTERRUPT] VBL"⟩
    [⟨"_irq_child", 0x200, 12, false, false, 1⟩]
    ⟨"[INTERRUPT] VBL", 0x40, 5, false, false, 0⟩ [] rfl rfl rfl
    (by decide)

/-! ### C9 -/

/-- C9: frames are identified by symbol name string only. Stack membership
(`fnStackContains`) and the pop-to operation (`popFramesUntil`) depend only
on the searched region's symbol string; and landing on a region whose
symbol is held by a stacked frame pops to the **topmost** such frame —
closing exactly the frames above it — even when that frame was pushed for
a different address or bank (only `fr.symbol = fn.symbol` is required
below; `fn.addr`, `fn.bank`, `fr.addr` are unconstrained). -/
theorem C9_symbol_only_matching :
    (∀ (st : EngineState) (r1 r2 : Region), r1.symbol = r2.symbol →
      fnStackContains st r1 = fnStackContains st r2) ∧
    (∀ (idx : String → Nat) (clock : Int) (st : EngineState) (fn : Region)
        (pre : List Frame) (fr : Frame) (rest : List Frame),
      st.fnStack = pre ++ fr :: rest →
      fr.symbol = fn.symbol →
      (∀ f ∈ pre, f.symbol ≠ fn.symbol) →
      fnStackContains st fn = true ∧
      popFramesUntil idx clock (some fn) st =
        { st with
            fnStack := fr :: rest
            events := st.events ++
              pre.map (fun f => closeEv idx f.symbol (max clock f.clock) f.clock) }) := by
  constructor
  · intro st r1 r2 h
    simp [fnStackContains, h]
  · intro idx clock st fn pre fr rest hfn hfr hpre
    have hmem : fr ∈ st.fnStack := by
      rw [hfn]; exact List.mem_append_right pre (List.mem_cons_self fr rest)
    have hc : fnStackContains st fn = true := by
      simp only [fnStackContains, List.any_eq_true]
      exact ⟨fr, hmem, by simp [hfr]⟩
    refine ⟨hc, ?_⟩
    rw [popFramesUntil, if_pos hc]
    simp only [hfn, popFramesUntilLoop_spec idx clock fn.symbol pre fr rest hfr hpre]

/-- C9 witness: `_f` was pushed for address `0x4000` in bank 2; a pop-to
for a region named `_f` in bank 5 at another address still pops to it,
closing only the frame above. -/
theorem C9_witness :
    ([⟨"_g", 0x4800, 9, false, false, 1⟩, ⟨"_f", 0x4000, 4, false, false, 0⟩] :
        List Frame) =
      [⟨"_g", 0x4800, 9, false, false, 1⟩] ++
        (⟨"_f", 0x4000, 4, false, false, 0⟩ : Frame) :: [] ∧
    fnStackContains
        ⟨[⟨"_g", 0x4800, 9, false, false, 1⟩, ⟨"_f", 0x4000, 4, false, false, 0⟩],
         [], none, []⟩ ⟨"_f", 0x5123, 5, 0x5fff⟩ = true ∧
    popFramesUntil (fun _ => 2) 11 (some ⟨"_f", 0x5123, 5, 0x5fff⟩)
        ⟨[⟨"_g", 0x4800, 9, false, false, 1⟩, ⟨"_f", 0x4000, 4, false, false, 0⟩],
         [], none, []⟩ =
      ⟨[⟨"_f", 0x4000, 4, false, false, 0⟩], [], none,
       [] ++ [closeEv (fun _ => 2) "_g" (max 11 9) 9]⟩ := by
  have h := C9_symbol_only_matching.2 (fun _ => 2) 11
    ⟨[⟨"_g", 0x4800, 9, false, false, 1⟩, ⟨"_f", 0x4000, 4, false, false, 0⟩],
     [], none, []⟩ ⟨"_f", 0x5123, 5, 0x5fff⟩
    [⟨"_g", 0x4800, 9, false, false, 1⟩] ⟨"_f", 0x4000, 4, false, false, 0⟩ []
    rfl rfl (by decide)
  exact ⟨rfl, h.1, h.2⟩

/-! ### C10 -/

/-- C10: a mid-region landing at `pc < 0x4000` whose symbol is not on the
call stack, with no interrupt in flight, emits no event and pushes no
frame, but does update the sticky current-region cache: the result differs
from the input state only in `currentFnRegion`. -/
theorem C10_mid_region_bank0_updates_cache_only
    (idx : String → Nat) (rbb : Nat → List Region) (clock : Int)
    (opcode : Nat) (pc : Int) (bank : Nat) (st : EngineState) (newFn : Region)
    (hop : opcode ≠ RETI)
    (hres : getCurrentFunctionRegion rbb st.currentFnRegion pc bank = some newFn)
    (hcur : st.currentFnRegion ≠ some newFn)
    (hig : newFn.symbol ∉ IGNORE_SYMBOLS)
    (hmid : pc ≠ newFn.addr)
    (hnc : fnStackContains st newFn = false)
    (hint : st.interruptStack = [])
    (hlow : pc < 0x4000) :
    onAfterInstruction idx rbb clock opcode pc bank st =
      { st with currentFnRegion := some newFn } := by
  have hop' : (opcode == RETI) = false := by
    simpa using hop
  have hcur' : (st.currentFnRegion == some newFn) = false := by
    simpa using hcur
  have hig' : IGNORE_SYMBOLS.contains newFn.symbol = false := by
    simpa [List.elem_iff] using hig
  have hmid' : (pc == newFn.addr) = false := by
    simpa using hmid
  have hhigh : ¬ pc ≥ 0x4000 := by omega
  rw [onAfterInstruction]
  simp [hop', hres, hcur', hig', hig, hmid', hnc, hint, hhigh]

/-- C10 witness. -/
theorem C10_witness :
    (0x2005 : Int) < 0x4000 ∧
    onAfterInstruction (fun _ => 0)
        (fun b => if b == 0 then [⟨"_boot", 0x2000, 0, 0x20ff⟩] else []) 17 0
        0x2005 3 ⟨[], [], none, []⟩ =
      ⟨[], [], some ⟨"_boot", 0x2000, 0, 0x20ff⟩, []⟩ := by
  refine ⟨by decide, ?_⟩
  exact C10_mid_region_bank0_updates_cache_only (fun _ => 0)
    (fun b => if b == 0 then [⟨"_boot", 0x2000, 0, 0x20ff⟩] else []) 17 0
    0x2005 3 ⟨[], [], none, []⟩ ⟨"_boot", 0x2000, 0, 0x20ff⟩
    (by decide) (by decide) (by decide) (by decide) (by decide) rfl rfl
    (by decide)

/-! ### C6 -/

lemma find?_eq_some_of_unique {α : Type} (p : α → Bool) :
    ∀ (l : List α) (r : α), r ∈ l → p r = true →
      (∀ x ∈ l, x ≠ r → p x = false) → l.find? p = some r
  | [], r, hr, _, _ => absurd hr (List.not_mem_nil r)
  | a :: rest, r, hr, hp, ho => by
    by_cases ha : a = r
    · subst ha
      exact List.find?_cons_of_pos rest hp
    · have hpa : p a = false := ho a (List.mem_cons_self a rest) ha
      have hr' : r ∈ rest := by
        rcases List.mem_cons.mp hr with h | h
        · exact absurd h.symm ha
        · exact h
      rw [List.find?_cons_of_neg rest (by simp [hpa])]
      exact find?_eq_some_of_unique p rest r hr' hp
        (fun x hx => ho x (List.mem_cons_of_mem a hx))

lemma resolver_of_miss (rbb : Nat → List Region) (cur : Option Region)
    (pc : Int) (bank : Nat)
    (hmiss : ∀ fn, cur = some fn →
      ¬(fn.addr ≤ pc ∧ pc ≤ fn.«end» ∧ (pc < 0x4000 ∨ fn.bank = bank))) :
    getCurrentFunctionRegion rbb cur pc bank =
      (rbb (if pc < 0x4000 then 0 else bank)).find?
        (fun fn => decide (fn.addr ≤ pc) && decide (pc ≤ fn.«end»)) := by
  cases cur with
  | none => rfl
  | some fn =>
    rw [getCurrentFunctionRegion, if_neg (hmiss fn rfl)]

/-- C6: the resolver honors the sticky cache — a cached region containing
`pc`, with `pc < 0x4000` or a matching bank, is returned as is — and
otherwise returns the unique region of bank `(pc < 0x4000 ? 0 : bank)`
whose `[addr, end]` interval contains `pc`, or `none` when no region does.
In particular (last conjunct), a `pc` exactly equal to a region's `end`
resolves to that region, not the next, given per-bank disjointness. -/
theorem C6_resolver :
    (∀ (rbb : Nat → List Region) (fn : Region) (pc : Int) (bank : Nat),
      fn.addr ≤ pc → pc ≤ fn.«end» → (pc < 0x4000 ∨ fn.bank = bank) →
      getCurrentFunctionRegion rbb (some fn) pc bank = some fn) ∧
    (∀ (rbb : Nat → List Region) (cur : Option Region) (pc : Int) (bank : Nat)
        (r : Region),
      (∀ fn, cur = some fn →
        ¬(fn.addr ≤ pc ∧ pc ≤ fn.«end» ∧ (pc < 0x4000 ∨ fn.bank = bank))) →
      r ∈ rbb (if pc < 0x4000 then 0 else bank) →
      r.addr ≤ pc → pc ≤ r.«end» →
      (∀ r' ∈ rbb (if pc < 0x4000 then 0 else bank), r' ≠ r →
        ¬(r'.addr ≤ pc ∧ pc ≤ r'.«end»)) →
      getCurrentFunctionRegion rbb cur pc bank = some r) ∧
    (∀ (rbb : Nat → List Region) (cur : Option Region) (pc : Int) (bank : Nat),
      (∀ fn, cur = some fn →
        ¬(fn.addr ≤ pc ∧ pc ≤ fn.«end» ∧ (pc < 0x4000 ∨ fn.bank = bank))) →
      (∀ r' ∈ rbb (if pc < 0x4000 then 0 else bank),
        ¬(r'.addr ≤ pc ∧ pc ≤ r'.«end»)) →
      getCurrentFunctionRegion rbb cur pc bank = none) ∧
    (∀ (rbb : Nat → List Region) (bank : Nat) (r : Region),
      r.addr ≤ r.«end» →
      r ∈ rbb (if r.«end» < 0x4000 then 0 else bank) →
      (∀ r' ∈ rbb (if r.«end» < 0x4000 then 0 else bank), r' ≠ r →
        r'.«end» < r.addr ∨ r.«end» < r'.addr) →
      getCurrentFunctionRegion rbb none r.«end» bank = some r) := by
  have fallback : ∀ (rbb : Nat → List Region) (cur : Option Region) (pc : Int)
      (bank : Nat) (r : Region),
      (∀ fn, cur = some fn →
        ¬(fn.addr ≤ pc ∧ pc ≤ fn.«end» ∧ (pc < 0x4000 ∨ fn.bank = bank))) →
      r ∈ rbb (if pc < 0x4000 then 0 else bank) →
      r.addr ≤ pc → pc ≤ r.«end» →
      (∀ r' ∈ rbb (if pc < 0x4000 then 0 else bank), r' ≠ r →
        ¬(r'.addr ≤ pc ∧ pc ≤ r'.«end»)) →
      getCurrentFunctionRegion rbb cur pc bank = some r := by
    intro rbb cur pc bank r hmiss hr h1 h2 huniq
    rw [resolver_of_miss rbb cur pc bank hmiss]
    refine find?_eq_some_of_unique _ _ r hr (by simp [h1, h2]) ?_
    intro x hx hne
    have := huniq x hx hne
    simp only [Bool.and_eq_false_iff, decide_eq_false_iff_not]
    by_cases hxa : x.addr ≤ pc
    · exact Or.inr (fun hxe => this ⟨hxa, hxe⟩)
    · exact Or.inl hxa
  refine ⟨?_, fallback, ?_, ?_⟩
  · intro rbb fn pc bank h1 h2 h3
    rw [getCurrentFunctionRegion, if_pos ⟨h1, h2, h3⟩]
  · intro rbb cur pc bank hmiss hnone
    rw [resolver_of_miss rbb cur pc bank hmiss, List.find?_eq_none]
    intro x hx
    have := hnone x hx
    simp only [Bool.and_eq_true, decide_eq_true_eq, not_and] at this ⊢
    exact this
  · intro rbb bank r hle hr hdisj
    refine fallback rbb none r.«end» bank r (by simp) hr hle le_rfl ?_
    intro r' hr' hne
    rcases hdisj r' hr' hne with h | h
    · intro hc
      omega
    · intro hc
      omega

/-- C6 witness: two adjacent bank-1 regions; `pc = 0x41ff` (the first
region's `end`) resolves to the first region, not the next; and the sticky
cache returns a cached containing region. -/
theorem C6_witness :
    getCurrentFunctionRegion
        (fun b => if b == 1 then
          [⟨"_a", 0x4100, 1, 0x41ff⟩, ⟨"_b", 0x4200, 1, 0x42ff⟩] else [])
        none 0x41ff 1 = some ⟨"_a", 0x4100, 1, 0x41ff⟩ ∧
    getCurrentFunctionRegion (fun _ => []) (some ⟨"_a", 0x4100, 1, 0x41ff⟩)
        0x4150 1 = some ⟨"_a", 0x4100, 1, 0x41ff⟩ := by
  constructor
  · exact C6_resolver.2.2.2
      (fun b => if b == 1 then
        [⟨"_a", 0x4100, 1, 0x41ff⟩, ⟨"_b", 0x4200, 1, 0x42ff⟩] else [])
      1 ⟨"_a", 0x4100, 1, 0x41ff⟩ (by decide) (by decide) (by decide)
  · exact C6_resolver.1 (fun _ => []) ⟨"_a", 0x4100, 1, 0x41ff⟩ 0x4150 1
      (by decide) (by decide) (by decide)

/-! ### C4 -/

instance : IsTrans Sym (fun a b => symLE a b = true) :=
  ⟨fun a b c hab hbc => by
    simp only [symLE, decide_eq_true_eq] at hab hbc ⊢
    omega⟩

instance : IsTotal Sym (fun a b => symLE a b = true) :=
  ⟨fun a b => by
    simp only [symLE, decide_eq_true_eq]
    omega⟩

lemma assignEnds_mem (addrMax : Int) :
    ∀ (g : List Sym) (r : Region), r ∈ assignEnds addrMax g →
      ∃ s ∈ g, r.symbol = s.symbol ∧ r.addr = s.addr ∧ r.bank = s.bank
  | [], r, hr => by simp [assignEnds] at hr
  | [s], r, hr => by
    simp only [assignEnds, List.mem_singleton] at hr
    subst hr
    exact ⟨s, List.mem_singleton_self s, rfl, rfl, rfl⟩
  | s :: t :: rest, r, hr => by
    simp only [assignEnds, List.mem_cons] at hr
    rcases hr with h | h
    · subst h
      exact ⟨s, List.mem_cons_self s (t :: rest), rfl, rfl, rfl⟩
    · obtain ⟨s', hs', hprop⟩ := assignEnds_mem addrMax (t :: rest) r h
      exact ⟨s', List.mem_cons_of_mem s hs', hprop⟩

lemma assignEnds_wf (addrMax : Int) :
    ∀ (g : List Sym),
      g.Pairwise (fun a b => a.addr < b.addr) →
      (∀ s ∈ g, 0 ≤ s.addr) → (∀ s ∈ g, s.addr ≤ addrMax) →
      (∀ r ∈ assignEnds addrMax g,
        0 ≤ r.addr ∧ r.addr ≤ r.«end» ∧ r.addr ≤ addrMax) ∧
      (assignEnds addrMax g).Pairwise (fun r1 r2 => r1.«end» < r2.addr)
  | [], _, _, _ => by simp [assignEnds]
  | [s], _, hpos, hmax => by
    refine ⟨?_, by simp [assignEnds]⟩
    intro r hr
    simp only [assignEnds, List.mem_singleton] at hr
    subst hr
    exact ⟨hpos s (List.mem_singleton_self s), hmax s (List.mem_singleton_self s),
      hmax s (List.mem_singleton_self s)⟩
  | s :: t :: rest, hsorted, hpos, hmax => by
    have hst : s.addr < t.addr := (List.pairwise_cons.mp hsorted).1 t
      (List.mem_cons_self t rest)
    have htail := assignEnds_wf addrMax (t :: rest)
      (List.pairwise_cons.mp hsorted).2
      (fun x hx => hpos x (List.mem_cons_of_mem s hx))
      (fun x hx => hmax x (List.mem_cons_of_mem s hx))
    have hsmax : s.addr ≤ addrMax := hmax s (List.mem_cons_self s (t :: rest))
    constructor
    · intro r hr
      simp only [assignEnds, List.mem_cons] at hr
      rcases hr with h | h
      · subst h
        refine ⟨hpos s (List.mem_cons_self s (t :: rest)), ?_, hsmax⟩
        simp only [le_min_iff]
        constructor
        · exact hsmax
        · omega
      · exact htail.1 r h
    · rw [assignEnds, List.pairwise_cons]
      refine ⟨?_, htail.2⟩
      intro r' hr'
      obtain ⟨s', hs', _, haddr, _⟩ := assignEnds_mem addrMax (t :: rest) r' hr'
      have hta : t.addr ≤ s'.addr := by
        rcases List.mem_cons.mp hs' with h | h
        · subst h; exact le_rfl
        · exact le_of_lt ((List.pairwise_cons.mp
            (List.pairwise_cons.mp hsorted).2).1 s' h)
      simp only
      rw [haddr]
      have : min addrMax (t.addr - 1) ≤ t.addr - 1 := min_le_right _ _
      omega

/-- C4, counterexample: the claim fails on `parseNoi` output. The accept
filter admits RAM symbols — `DEF _v C000` parses to `{_v, addr 0xC000,
bank 0}` since the bank of a sub-0x4000 *or RAM* address defaults by the
`(fullAddr >> 16) & 0xff` rule — and the resulting bank-0 region has
`addr = 0xC000 > end = 0x3FFF` and `addr > bankMax 0 = 0x3FFF`. -/
theorem C4_counterexample :
    ¬ (∀ r ∈ generateFunctionRegions (parseNoi "DEF _v C000"),
        r.addr ≤ r.«end» ∧ 0 ≤ r.addr ∧ r.addr ≤ bankMax r.bank) := by
  decide

/-- C4, amended: for symbol lists whose per-bank addresses are distinct,
non-negative, and within the bank's address ceiling — which `parseNoi`
does **not** guarantee (duplicates of the pre-seeded interrupt vectors and
out-of-window addresses such as RAM symbols slip through) — every region
produced by `generateFunctionRegions` satisfies `0 ≤ addr ≤ end` with
`addr ≤ bankMax bank`, and any two distinct regions in the same bank have
disjoint `[addr, end]` intervals. -/
theorem C4_regions_wf (l : List Sym)
    (hpos : ∀ s ∈ l, 0 ≤ s.addr)
    (hmax : ∀ s ∈ l, s.addr ≤ bankMax s.bank)
    (hdist : l.Pairwise (fun a b => a.bank = b.bank → a.addr ≠ b.addr)) :
    (∀ r ∈ generateFunctionRegions l,
      0 ≤ r.addr ∧ r.addr ≤ r.«end» ∧ r.addr ≤ bankMax r.bank) ∧
    (∀ r1 ∈ generateFunctionRegions l, ∀ r2 ∈ generateFunctionRegions l,
      r1.bank = r2.bank → r1 ≠ r2 →
      r1.«end» < r2.addr ∨ r2.«end» < r1.addr) := by
  classical
  -- Per-bank facts about the sorted filtered group and its regions.
  have perBank : ∀ b : Nat,
      (∀ r ∈ assignEnds (bankMax b)
          ((l.filter (fun s => s.bank == b)).insertionSort
            (fun a b => symLE a b = true)),
        (0 ≤ r.addr ∧ r.addr ≤ r.«end» ∧ r.addr ≤ bankMax b) ∧ r.bank = b) ∧
      (assignEnds (bankMax b)
          ((l.filter (fun s => s.bank == b)).insertionSort
            (fun a b => symLE a b = true))).Pairwise
        (fun r1 r2 => r1.«end» < r2.addr) := by
    intro b
    set fil := l.filter (fun s => s.bank == b) with hfil
    set g := fil.insertionSort (fun a b => symLE a b = true) with hg
    have hperm : g.Perm fil := List.perm_insertionSort _ fil
    have hmemg : ∀ s ∈ g, s ∈ l ∧ s.bank = b := by
      intro s hs
      have : s ∈ fil := hperm.mem_iff.mp hs
      have h2 := List.mem_filter.mp this
      exact ⟨h2.1, by simpa using h2.2⟩
    have hsorted : g.Pairwise (fun a b => a.addr ≤ b.addr) := by
      have := List.sorted_insertionSort (fun a b => symLE a b = true) fil
      exact this.imp (fun h => by simpa [symLE] using h)
    have hne : g.Pairwise (fun a b => a.addr ≠ b.addr) := by
      have h1 : fil.Pairwise (fun a b => a.bank = b.bank → a.addr ≠ b.addr) :=
        hdist.filter _
      have h2 : fil.Pairwise (fun a b => a.addr ≠ b.addr) := by
        refine List.Pairwise.imp_of_mem ?_ h1
        intro a c ha hc h
        have hba := List.mem_filter.mp ha
        have hbc := List.mem_filter.mp hc
        exact h (by
          have e1 : a.bank = b := by simpa using hba.2
          have e2 : c.bank = b := by simpa using hbc.2
          rw [e1, e2])
      exact ((List.Perm.pairwise_iff (fun h => Ne.symm h)) hperm).mpr h2
    have hlt : g.Pairwise (fun a b => a.addr < b.addr) :=
      (hsorted.and hne).imp (fun h => lt_of_le_of_ne h.1 h.2)
    have := assignEnds_wf (bankMax b) g hlt
      (fun s hs => hpos s (hmemg s hs).1)
      (fun s hs => by rw [← (hmemg s hs).2]; exact hmax s (hmemg s hs).1)
    refine ⟨?_, this.2⟩
    intro r hr
    refine ⟨this.1 r hr, ?_⟩
    obtain ⟨s, hs, _, _, hbank⟩ := assignEnds_mem (bankMax b) g r hr
    rw [hbank]
    exact (hmemg s hs).2
  constructor
  · intro r hr
    obtain ⟨b, _, hrb⟩ := List.mem_flatMap.mp hr
    obtain ⟨⟨h1, h2, h3⟩, hbank⟩ := ((perBank b).1 r hrb)
    exact ⟨h1, h2, by rw [hbank]; exact h3⟩
  · intro r1 hr1 r2 hr2 hbank hne
    obtain ⟨b1, _, hrb1⟩ := List.mem_flatMap.mp hr1
    obtain ⟨b2, _, hrb2⟩ := List.mem_flatMap.mp hr2
    have e1 : r1.bank = b1 := ((perBank b1).1 r1 hrb1).2
    have e2 : r2.bank = b2 := ((perBank b2).1 r2 hrb2).2
    have hb : b1 = b2 := by rw [← e1, ← e2, hbank]
    subst hb
    have hpw := (perBank b1).2.imp
      (fun {x y} (h : x.«end» < y.addr) => Or.inl h :
        ∀ {x y : Region}, x.«end» < y.addr →
          (x.«end» < y.addr ∨ y.«end» < x.addr))
    have hsym : Symmetric (fun x y : Region =>
        x.«end» < y.addr ∨ y.«end» < x.addr) := by
      intro x y h
      exact h.symm
    exact hpw.forall hsym hrb1 hrb2 hne

/-- C4 amended-theorem witness: the interrupt-vector-only symbol list (an
empty map file) satisfies the hypotheses, and its regions are well formed
and disjoint. -/
theorem C4_witness :
    ((∀ s ∈ parseNoi "", 0 ≤ s.addr) ∧
     (∀ s ∈ parseNoi "", s.addr ≤ bankMax s.bank) ∧
     (parseNoi "").Pairwise (fun a b => a.bank = b.bank → a.addr ≠ b.addr)) ∧
    ((∀ r ∈ generateFunctionRegions (parseNoi ""),
       0 ≤ r.addr ∧ r.addr ≤ r.«end» ∧ r.addr ≤ bankMax r.bank) ∧
     (∀ r1 ∈ generateFunctionRegions (parseNoi ""),
       ∀ r2 ∈ generateFunctionRegions (parseNoi ""),
       r1.bank = r2.bank → r1 ≠ r2 →
       r1.«end» < r2.addr ∨ r2.«end» < r1.addr)) :=
  ⟨⟨by decide, by decide, by decide⟩,
   C4_regions_wf (parseNoi "") (by decide) (by decide) (by decide)⟩

/-! ### The finalize filter walk: invariants

Shared machinery for the claims about `finalizeTrace`. `allIdx` collects
every open-event index sitting on some per-frame stack; `WS` is the
well-formedness invariant of the filter loop state: stack entries are past
indices, unmarked, duplicate-free, the Map's keys are duplicate-free, and
indices not yet reached are unmarked. -/

/-- All open-event indices currently on some stack of the Map. -/
def allIdx (m : List (Nat × List Nat)) : List Nat :=
  m.flatMap (fun p => p.2)

lemma incEnd_eq (st : FilterSt) (j : Nat) :
    incEnd st j = (st.inc j || (allIdx st.openStacks).contains j) := rfl

/-- Well-formedness of a filter loop state. -/
structure WS (st : FilterSt) : Prop where
  lt : ∀ j ∈ allIdx st.openStacks, j < st.pos
  incFalse : ∀ j ∈ allIdx st.openStacks, st.inc j = false
  nd : (allIdx st.openStacks).Nodup
  keysNd : (st.openStacks.map Prod.fst).Nodup
  hi : ∀ j, st.pos ≤ j → st.inc j = false

lemma lookupStack_setStack_self :
    ∀ (m : List (Nat × List Nat)) (f : Nat) (v : List Nat),
      lookupStack (setStack m f v) f = some v
  | [], f, v => by simp [setStack, lookupStack]
  | p :: rest, f, v => by
    by_cases h : p.1 == f
    · simp [setStack, h, lookupStack]
    · simp only [setStack, h, Bool.false_eq_true, if_false]
      rw [lookupStack, List.find?_cons_of_neg _ (by simpa using h)]
      exact lookupStack_setStack_self rest f v

lemma lookupStack_setStack_other :
    ∀ (m : List (Nat × List Nat)) (f g : Nat) (v : List Nat), g ≠ f →
      lookupStack (setStack m f v) g = lookupStack m g
  | [], f, g, v, hne => by
    simp only [setStack, lookupStack, List.find?]
    have : (f == g) = false := by simpa using (Ne.symm hne)
    simp [this]
  | p :: rest, f, g, v, hne => by
    by_cases h : p.1 == f
    · have hpg : (p.1 == g) = false := by
        have : p.1 = f := by simpa using h
        simpa [this] using (Ne.symm hne)
      simp only [setStack, h, if_true]
      rw [lookupStack, List.find?_cons_of_neg _ (by simp [Ne.symm hne]),
        lookupStack, List.find?_cons_of_neg _ (by simpa using hpg)]
    · simp only [setStack, h, Bool.false_eq_true, if_false]
      by_cases hpg : p.1 == g
      · rw [lookupStack, List.find?_cons_of_pos _ (by simpa using hpg),
          lookupStack, List.find?_cons_of_pos _ (by simpa using hpg)]
      · rw [lookupStack, List.find?_cons_of_neg _ (by simpa using hpg),
          lookupStack, List.find?_cons_of_neg _ (by simpa using hpg)]
        exact lookupStack_setStack_other rest f g v hne

lemma stackOf_setStack_self (m : List (Nat × List Nat)) (f : Nat)
    (v : List Nat) : stackOf (setStack m f v) f = v := by
  rw [stackOf, lookupStack_setStack_self]
  rfl

lemma stackOf_setStack_other (m : List (Nat × List Nat)) {f g : Nat}
    (v : List Nat) (hne : g ≠ f) : stackOf (setStack m f v) g = stackOf m g := by
  rw [stackOf, lookupStack_setStack_other m f g v hne, stackOf]

lemma lookupStack_none_iff (m : List (Nat × List Nat)) (f : Nat) :
    lookupStack m f = none ↔ ∀ q ∈ m, q.1 ≠ f := by
  rw [lookupStack, Option.map_eq_none', List.find?_eq_none]
  constructor
  · intro h q hq
    simpa using h q hq
  · intro h q hq
    simpa using h q hq

lemma setStack_of_none {m : List (Nat × List Nat)} {f : Nat}
    (hl : lookupStack m f = none) :
    ∀ v, setStack m f v = m ++ [(f, v)] := by
  induction m with
  | nil => intro v; rfl
  | cons p rest ih =>
    intro v
    have hp : p.1 ≠ f := ((lookupStack_none_iff _ _).mp hl) p
      (List.mem_cons_self p rest)
    have hrest : lookupStack rest f = none := by
      rw [lookupStack_none_iff]
      exact fun q hq => ((lookupStack_none_iff _ _).mp hl) q
        (List.mem_cons_of_mem p hq)
    simp only [setStack, show (p.1 == f) = false by simpa using hp,
      Bool.false_eq_true, if_false, List.cons_append, List.cons.injEq, true_and]
    exact ih hrest v

lemma setStack_decomp :
    ∀ (m : List (Nat × List Nat)) (f : Nat) (s : List Nat),
      (m.map Prod.fst).Nodup → lookupStack m f = some s →
      ∃ pre post, m = pre ++ (f, s) :: post ∧ (∀ q ∈ pre, q.1 ≠ f) ∧
        (∀ q ∈ post, q.1 ≠ f) ∧ ∀ v, setStack m f v = pre ++ (f, v) :: post
  | [], f, s, _, hl => by simp [lookupStack] at hl
  | p :: rest, f, s, hnd, hl => by
    by_cases h : p.1 == f
    · have hpf : p.1 = f := by simpa using h
      have hps : p.2 = s := by
        rw [lookupStack] at hl
        simp only [List.find?_cons, h] at hl
        simpa using hl
      refine ⟨[], rest, ?_, by simp, ?_, ?_⟩
      · simp [← hpf, ← hps]
      · intro q hq
        have : p.1 ∉ rest.map Prod.fst := (List.nodup_cons.mp hnd).1
        intro hqf
        exact this (by
          rw [hpf, ← hqf]
          exact List.mem_map_of_mem Prod.fst hq)
      · intro v
        simp [setStack, h, ← hpf, ← hps]
    · have hne : p.1 ≠ f := by simpa using h
      have hl' : lookupStack rest f = some s := by
        rwa [lookupStack, List.find?_cons_of_neg _ (by simpa using h)] at hl
      obtain ⟨pre, post, hm, hpre, hpost, hset⟩ := setStack_decomp rest f s
        (List.nodup_cons.mp hnd).2 hl'
      refine ⟨p :: pre, post, by rw [hm]; rfl, ?_, hpost, ?_⟩
      · intro q hq
        rcases List.mem_cons.mp hq with hq | hq
        · subst hq; exact hne
        · exact hpre q hq
      · intro v
        simp only [setStack, h, Bool.false_eq_true, if_false, List.cons_append,
          List.cons.injEq, true_and]
        exact hset v

lemma mem_allIdx_setStack :
    ∀ (m : List (Nat × List Nat)) (f : Nat) (v : List Nat) (j : Nat),
      j ∈ allIdx (setStack m f v) → j ∈ v ∨ j ∈ allIdx m
  | [], f, v, j, hj => by
    simp only [setStack, allIdx, List.flatMap_cons, List.flatMap_nil,
      List.append_nil] at hj
    exact Or.inl hj
  | p :: rest, f, v, j, hj => by
    by_cases h : p.1 == f
    · simp only [setStack, h, if_true, allIdx, List.flatMap_cons,
        List.mem_append] at hj
      rcases hj with hj | hj
      · exact Or.inl hj
      · exact Or.inr (by
          simp only [allIdx, List.flatMap_cons, List.mem_append]
          exact Or.inr hj)
    · simp only [setStack, h, Bool.false_eq_true, if_false, allIdx,
        List.flatMap_cons, List.mem_append] at hj
      rcases hj with hj | hj
      · exact Or.inr (by
          simp only [allIdx, List.flatMap_cons, List.mem_append]
          exact Or.inl hj)
      · rcases mem_allIdx_setStack rest f v j hj with hj | hj
        · exact Or.inl hj
        · exact Or.inr (by
            simp only [allIdx, List.flatMap_cons, List.mem_append]
            exact Or.inr hj)

lemma mem_allIdx_of_lookup {m : List (Nat × List Nat)} {f : Nat}
    {s : List Nat} (hl : lookupStack m f = some s) :
    ∀ j ∈ s, j ∈ allIdx m := by
  intro j hj
  rw [lookupStack] at hl
  obtain ⟨q, hq, hq2⟩ := Option.map_eq_some'.mp hl
  have hqm : q ∈ m := List.mem_of_find?_eq_some hq
  rw [allIdx, List.mem_flatMap]
  exact ⟨q, hqm, by rw [hq2]; exact hj⟩

lemma mem_allIdx_of_stackOf {m : List (Nat × List Nat)} {f : Nat} {j : Nat}
    (hj : j ∈ stackOf m f) : j ∈ allIdx m := by
  rw [stackOf] at hj
  cases hl : lookupStack m f with
  | none => rw [hl] at hj; simp at hj
  | some s =>
    rw [hl] at hj
    exact mem_allIdx_of_lookup hl j hj

lemma allIdx_decomp (pre : List (Nat × List Nat)) (f : Nat) (s : List Nat)
    (post : List (Nat × List Nat)) :
    allIdx (pre ++ (f, s) :: post) = allIdx pre ++ (s ++ allIdx post) := by
  simp [allIdx]

lemma keys_decomp (pre : List (Nat × List Nat)) (f : Nat) (s : List Nat)
    (post : List (Nat × List Nat)) :
    (pre ++ (f, s) :: post).map Prod.fst =
      pre.map Prod.fst ++ f :: post.map Prod.fst := by
  simp

/-- Pushing `pos` onto frame `f`'s stack permutes `allIdx` to a cons. -/
lemma allIdx_push_perm (m : List (Nat × List Nat)) (f : Nat) (p : Nat)
    (hkeys : (m.map Prod.fst).Nodup) :
    (allIdx (setStack m f (p :: stackOf m f))).Perm (p :: allIdx m) := by
  cases hl : lookupStack m f with
  | none =>
    have hso : stackOf m f = [] := by rw [stackOf, hl]; rfl
    rw [setStack_of_none hl, hso]
    simp only [allIdx, List.flatMap_append, List.flatMap_cons, List.flatMap_nil,
      List.append_nil]
    exact List.perm_append_singleton p (m.flatMap fun q => q.2)
  | some s =>
    obtain ⟨pre, post, hm, _, _, hset⟩ := setStack_decomp m f s hkeys hl
    have hso : stackOf m f = s := by rw [stackOf, hl]; rfl
    rw [hso, hset (p :: s), hm, allIdx_decomp, allIdx_decomp]
    exact List.perm_middle

/-- Popping the top of frame `f`'s stack: the old `allIdx` is a
permutation of the popped index consed on the new one. -/
lemma allIdx_pop_perm (m : List (Nat × List Nat)) (f : Nat) (o : Nat)
    (s : List Nat) (hkeys : (m.map Prod.fst).Nodup)
    (hl : lookupStack m f = some (o :: s)) :
    (allIdx m).Perm (o :: allIdx (setStack m f s)) := by
  obtain ⟨pre, post, hm, _, _, hset⟩ := setStack_decomp m f (o :: s) hkeys hl
  rw [hset s, hm, allIdx_decomp, allIdx_decomp]
  exact List.perm_middle

/-- One filter step preserves well-formedness. -/
lemma WS_step (cs : Int) {st : FilterSt} (e : Event) (h : WS st) :
    WS (filterStep cs st e) := by
  obtain ⟨hlt, hincF, hnd, hkeys, hhi⟩ := h
  have hps : (filterStep cs st e).pos = st.pos + 1 := rfl
  cases he : e.type with
  | O =>
    have hos : (filterStep cs st e).openStacks =
        setStack st.openStacks e.frame (st.pos :: stackOf st.openStacks e.frame) := by
      simp [filterStep, stacksStep, he]
    have hic : (filterStep cs st e).inc = st.inc := by
      simp [filterStep, incStep, he]
    have hperm := allIdx_push_perm st.openStacks e.frame st.pos hkeys
    refine ⟨?_, ?_, ?_, ?_, ?_⟩
    · rw [hos, hps]
      intro j hj
      rcases List.mem_cons.mp ((hperm.mem_iff).mp hj) with hj | hj
      · omega
      · have := hlt j hj; omega
    · rw [hos, hic]
      intro j hj
      rcases List.mem_cons.mp ((hperm.mem_iff).mp hj) with hj | hj
      · subst hj; exact hhi _ le_rfl
      · exact hincF j hj
    · rw [hos]
      refine (hperm.nodup_iff).mpr (List.nodup_cons.mpr ⟨?_, hnd⟩)
      intro hmem
      exact absurd (hlt _ hmem) (lt_irrefl _)
    · rw [hos]
      cases hl : lookupStack st.openStacks e.frame with
      | none =>
        rw [setStack_of_none hl]
        simp only [List.map_append, List.map_cons, List.map_nil]
        rw [List.nodup_append]
        refine ⟨hkeys, List.nodup_singleton e.frame, ?_⟩
        intro a ha hb
        simp only [List.mem_singleton] at hb
        subst hb
        obtain ⟨q, hq, hq2⟩ := List.mem_map.mp ha
        exact ((lookupStack_none_iff st.openStacks e.frame).mp hl) q hq hq2
      | some s =>
        obtain ⟨pre, post, hmm, _, _, hset⟩ :=
          setStack_decomp st.openStacks e.frame s hkeys hl
        rw [hset, keys_decomp]
        rw [hmm, keys_decomp] at hkeys
        exact hkeys
    · rw [hps, hic]
      intro j hj
      exact hhi j (by omega)
  | C =>
    cases hl : lookupStack st.openStacks e.frame with
    | none =>
      have hos : (filterStep cs st e).openStacks = st.openStacks := by
        simp [filterStep, stacksStep, he, hl]
      have hic : (filterStep cs st e).inc = st.inc := by
        simp [filterStep, incStep, he, hl]
      refine ⟨?_, ?_, ?_, ?_, ?_⟩
      · rw [hos, hps]
        intro j hj
        have := hlt j hj
        omega
      · rw [hos, hic]
        exact hincF
      · rw [hos]
        exact hnd
      · rw [hos]
        exact hkeys
      · rw [hps, hic]
        intro j hj
        exact hhi j (by omega)
    | some s =>
      cases s with
      | nil =>
        have hos : (filterStep cs st e).openStacks = st.openStacks := by
          simp [filterStep, stacksStep, he, hl]
        have hic : (filterStep cs st e).inc = st.inc := by
          simp [filterStep, incStep, he, hl]
        refine ⟨?_, ?_, ?_, ?_, ?_⟩
        · rw [hos, hps]
          intro j hj
          have := hlt j hj
          omega
        · rw [hos, hic]
          exact hincF
        · rw [hos]
          exact hnd
        · rw [hos]
          exact hkeys
        · rw [hps, hic]
          intro j hj
          exact hhi j (by omega)
      | cons o rest =>
        have hos : (filterStep cs st e).openStacks =
            setStack st.openStacks e.frame rest := by
          simp [filterStep, stacksStep, he, hl]
        have hic : (filterStep cs st e).inc = if cs ≤ e.«at»
            then (fun j => st.inc j || j == o || j == st.pos) else st.inc := by
          simp [filterStep, incStep, he, hl]
        have hperm := allIdx_pop_perm st.openStacks e.frame o rest hkeys hl
        have homem : o ∈ allIdx st.openStacks :=
          (hperm.mem_iff).mpr (List.mem_cons_self _ _)
        have hnd' : (o :: allIdx (setStack st.openStacks e.frame rest)).Nodup :=
          (hperm.nodup_iff).mp hnd
        have honot : o ∉ allIdx (setStack st.openStacks e.frame rest) :=
          (List.nodup_cons.mp hnd').1
        have hsub : ∀ j ∈ allIdx (setStack st.openStacks e.frame rest),
            j ∈ allIdx st.openStacks := by
          intro j hj
          exact (hperm.mem_iff).mpr (List.mem_cons_of_mem o hj)
        refine ⟨?_, ?_, ?_, ?_, ?_⟩
        · rw [hos, hps]
          intro j hj
          have := hlt j (hsub j hj)
          omega
        · rw [hos, hic]
          intro j hj
          have h1 : st.inc j = false := hincF j (hsub j hj)
          have h2 : j ≠ o := fun hjo => honot (hjo ▸ hj)
          have h3 : j ≠ st.pos := by
            have := hlt j (hsub j hj)
            omega
          split
          · simp [h1, h2, h3]
          · exact h1
        · rw [hos]
          exact (List.nodup_cons.mp hnd').2
        · rw [hos]
          obtain ⟨pre, post, hmm, _, _, hset⟩ :=
            setStack_decomp st.openStacks e.frame (o :: rest) hkeys hl
          rw [hset, keys_decomp]
          rw [hmm, keys_decomp] at hkeys
          exact hkeys
        · rw [hps, hic]
          intro j hj
          have h1 : st.inc j = false := hhi j (by omega)
          have h2 : j ≠ o := by
            have := hlt o homem
            omega
          have h3 : j ≠ st.pos := by omega
          split
          · simp [h1, h2, h3]
          · exact h1

/-- One step of the include marks keeps existing marks. -/
lemma inc_step_mono (cs : Int) (st : FilterSt) (e : Event) (j : Nat)
    (h : st.inc j = true) : (filterStep cs st e).inc j = true := by
  cases he : e.type with
  | O =>
    have hic : (filterStep cs st e).inc = st.inc := by
      simp [filterStep, incStep, he]
    rw [hic]; exact h
  | C =>
    cases hl : lookupStack st.openStacks e.frame with
    | none =>
      have hic : (filterStep cs st e).inc = st.inc := by
        simp [filterStep, incStep, he, hl]
      rw [hic]; exact h
    | some s =>
      cases s with
      | nil =>
        have hic : (filterStep cs st e).inc = st.inc := by
          simp [filterStep, incStep, he, hl]
        rw [hic]; exact h
      | cons o r =>
        have hic : (filterStep cs st e).inc = if cs ≤ e.«at»
            then (fun j => st.inc j || j == o || j == st.pos) else st.inc := by
          simp [filterStep, incStep, he, hl]
        rw [hic]
        split
        · simp [h]
        · exact h

/-- Include marks only grow along the walk. -/
lemma inc_mono (cs : Int) :
    ∀ (l : List Event) (st : FilterSt) (j : Nat), st.inc j = true →
      (filterRun cs st l).inc j = true
  | [], _, _, h => h
  | e :: rest, st, j, h =>
    inc_mono cs rest (filterStep cs st e) j (inc_step_mono cs st e j h)

/-- An index that is unmarked, absent from every stack, and already passed
stays unmarked and absent for the rest of the walk (and hence is excluded
by the end-marking too). -/
lemma untouched (cs : Int) :
    ∀ (l : List Event) (st : FilterSt) (j : Nat),
      st.inc j = false → j ∉ allIdx st.openStacks → j < st.pos →
      (filterRun cs st l).inc j = false ∧
        j ∉ allIdx (filterRun cs st l).openStacks
  | [], _, _, h1, h2, _ => ⟨h1, h2⟩
  | e :: rest, st, j, h1, h2, h3 => by
    have hstep : (filterStep cs st e).inc j = false ∧
        j ∉ allIdx (filterStep cs st e).openStacks := by
      cases he : e.type with
      | O =>
        have hos : (filterStep cs st e).openStacks =
            setStack st.openStacks e.frame
              (st.pos :: stackOf st.openStacks e.frame) := by
          simp [filterStep, stacksStep, he]
        have hic : (filterStep cs st e).inc = st.inc := by
          simp [filterStep, incStep, he]
        rw [hos, hic]
        refine ⟨h1, ?_⟩
        intro hj
        rcases mem_allIdx_setStack _ _ _ j hj with hj | hj
        · rcases List.mem_cons.mp hj with hj | hj
          · omega
          · exact h2 (mem_allIdx_of_stackOf hj)
        · exact h2 hj
      | C =>
        cases hl : lookupStack st.openStacks e.frame with
        | none =>
          have hos : (filterStep cs st e).openStacks = st.openStacks := by
            simp [filterStep, stacksStep, he, hl]
          have hic : (filterStep cs st e).inc = st.inc := by
            simp [filterStep, incStep, he, hl]
          rw [hos, hic]
          exact ⟨h1, h2⟩
        | some s =>
          cases s with
          | nil =>
            have hos : (filterStep cs st e).openStacks = st.openStacks := by
              simp [filterStep, stacksStep, he, hl]
            have hic : (filterStep cs st e).inc = st.inc := by
              simp [filterStep, incStep, he, hl]
            rw [hos, hic]
            exact ⟨h1, h2⟩
          | cons o r =>
            have hos : (filterStep cs st e).openStacks =
                setStack st.openStacks e.frame r := by
              simp [filterStep, stacksStep, he, hl]
            have hic : (filterStep cs st e).inc = if cs ≤ e.«at»
                then (fun j => st.inc j || j == o || j == st.pos)
                else st.inc := by
              simp [filterStep, incStep, he, hl]
            rw [hos, hic]
            constructor
            · have ho : j ≠ o := by
                intro hjo
                exact h2 (hjo ▸ mem_allIdx_of_lookup hl o (List.mem_cons_self o r))
              have hp : j ≠ st.pos := by omega
              split
              · simp [h1, ho, hp]
              · exact h1
            · intro hj
              rcases mem_allIdx_setStack _ _ _ j hj with hj | hj
              · exact h2 (mem_allIdx_of_lookup hl j (List.mem_cons_of_mem o hj))
              · exact h2 hj
    refine untouched cs rest (filterStep cs st e) j hstep.1 hstep.2 ?_
    show j < st.pos + 1
    omega

/-- The filter run's stacks and position only depend on the stack walk. -/
lemma filterRun_shape (cs : Int) :
    ∀ (l : List Event) (st : FilterSt),
      (filterRun cs st l).openStacks = stacksRun st.openStacks st.pos l ∧
      (filterRun cs st l).pos = st.pos + l.length
  | [], st => ⟨rfl, by simp [filterRun, stacksRun]⟩
  | e :: rest, st => by
    have ih := filterRun_shape cs rest (filterStep cs st e)
    refine ⟨?_, ?_⟩
    · rw [show filterRun cs st (e :: rest) = filterRun cs (filterStep cs st e) rest
        from rfl, ih.1]
      rfl
    · rw [show filterRun cs st (e :: rest) = filterRun cs (filterStep cs st e) rest
        from rfl, ih.2]
      simp only [filterStep, List.length_cons]
      omega

lemma incEnd_true_of_inc {st : FilterSt} {j : Nat} (h : st.inc j = true) :
    incEnd st j = true := by
  rw [incEnd_eq, h]
  rfl

lemma incEnd_false_of {st : FilterSt} {j : Nat} (h1 : st.inc j = false)
    (h2 : j ∉ allIdx st.openStacks) : incEnd st j = false := by
  rw [incEnd_eq, h1, Bool.false_or]
  cases hx : (allIdx st.openStacks).contains j with
  | false => rfl
  | true => exact absurd (List.elem_iff.mp hx) h2

/-- The core of the capture-start filter's correctness: a matched pair is
marked for inclusion (on both endpoints) exactly when the close's
timestamp reaches the capture start. -/
lemma matchNew_marks (cs : Int) :
    ∀ (l : List Event) (st : FilterSt), WS st →
      ∀ p ∈ matchNew st.openStacks st.pos l,
        (incEnd (filterRun cs st l) p.1 = true ↔ cs ≤ p.2.2) ∧
        (incEnd (filterRun cs st l) p.2.1 = true ↔ cs ≤ p.2.2)
  | [], _, _, p, hp => by simp [matchNew] at hp
  | e :: rest, st, hws, p, hp => by
    have hws' := WS_step cs e hws
    have hrun : filterRun cs st (e :: rest) =
        filterRun cs (filterStep cs st e) rest := rfl
    have htail : matchNew (stacksStep st.openStacks st.pos e) (st.pos + 1) rest =
        matchNew (filterStep cs st e).openStacks (filterStep cs st e).pos rest :=
      rfl
    cases he : e.type with
    | O =>
      have hm : matchNew st.openStacks st.pos (e :: rest) =
          matchNew (stacksStep st.openStacks st.pos e) (st.pos + 1) rest := by
        rw [matchNew, he]
      rw [hm, htail] at hp
      rw [hrun]
      exact matchNew_marks cs rest (filterStep cs st e) hws' p hp
    | C =>
      cases hl : lookupStack st.openStacks e.frame with
      | none =>
        have hm : matchNew st.openStacks st.pos (e :: rest) =
            matchNew (stacksStep st.openStacks st.pos e) (st.pos + 1) rest := by
          rw [matchNew, he, hl]
        rw [hm, htail] at hp
        rw [hrun]
        exact matchNew_marks cs rest (filterStep cs st e) hws' p hp
      | some s =>
        cases s with
        | nil =>
          have hm : matchNew st.openStacks st.pos (e :: rest) =
              matchNew (stacksStep st.openStacks st.pos e) (st.pos + 1) rest := by
            rw [matchNew, he, hl]
          rw [hm, htail] at hp
          rw [hrun]
          exact matchNew_marks cs rest (filterStep cs st e) hws' p hp
        | cons o r =>
          have hm : matchNew st.openStacks st.pos (e :: rest) =
              (o, st.pos, e.«at») ::
                matchNew (stacksStep st.openStacks st.pos e) (st.pos + 1) rest := by
            rw [matchNew, he, hl]
          rw [hm, htail] at hp
          rw [hrun]
          rcases List.mem_cons.mp hp with hp | hp
          · subst hp
            -- the pair produced at this step
            have hos : (filterStep cs st e).openStacks =
                setStack st.openStacks e.frame r := by
              simp [filterStep, stacksStep, he, hl]
            have hic : (filterStep cs st e).inc = if cs ≤ e.«at»
                then (fun j => st.inc j || j == o || j == st.pos)
                else st.inc := by
              simp [filterStep, incStep, he, hl]
            have homem : o ∈ allIdx st.openStacks :=
              mem_allIdx_of_lookup hl o (List.mem_cons_self o r)
            have holt : o < st.pos := hws.lt o homem
            by_cases hcs : cs ≤ e.«at»
            · have hoT : (filterStep cs st e).inc o = true := by
                rw [hic, if_pos hcs]
                simp
              have hpT : (filterStep cs st e).inc st.pos = true := by
                rw [hic, if_pos hcs]
                simp
              refine ⟨?_, ?_⟩
              · exact iff_of_true
                  (incEnd_true_of_inc (inc_mono cs rest (filterStep cs st e) o hoT))
                  hcs
              · exact iff_of_true
                  (incEnd_true_of_inc
                    (inc_mono cs rest (filterStep cs st e) st.pos hpT))
                  hcs
            · have hperm := allIdx_pop_perm st.openStacks e.frame o r
                hws.keysNd hl
              have hnd' :
                  (o :: allIdx (setStack st.openStacks e.frame r)).Nodup :=
                (hperm.nodup_iff).mp hws.nd
              have honot : o ∉ allIdx (setStack st.openStacks e.frame r) :=
                (List.nodup_cons.mp hnd').1
              have hsub : ∀ j ∈ allIdx (setStack st.openStacks e.frame r),
                  j ∈ allIdx st.openStacks := by
                intro j hj
                exact (hperm.mem_iff).mpr (List.mem_cons_of_mem o hj)
              have hoF : (filterStep cs st e).inc o = false := by
                rw [hic, if_neg hcs]
                exact hws.incFalse o homem
              have hpF : (filterStep cs st e).inc st.pos = false := by
                rw [hic, if_neg hcs]
                exact hws.hi st.pos le_rfl
              have huo := untouched cs rest (filterStep cs st e) o hoF
                (by rw [hos]; exact honot)
                (by show o < st.pos + 1; omega)
              have hup := untouched cs rest (filterStep cs st e) st.pos hpF
                (by
                  rw [hos]
                  intro hmem
                  have := hws.lt st.pos (hsub st.pos hmem)
                  omega)
                (by show st.pos < st.pos + 1; omega)
              refine ⟨?_, ?_⟩
              · rw [incEnd_false_of huo.1 huo.2]
                simp only [Bool.false_eq_true, false_iff]
                exact hcs
              · rw [incEnd_false_of hup.1 hup.2]
                simp only [Bool.false_eq_true, false_iff]
                exact hcs
          · exact matchNew_marks cs rest (filterStep cs st e) hws' p hp

/-- The initial filter state is well formed. -/
lemma WS_init : WS initSt := by
  refine ⟨?_, ?_, ?_, ?_, ?_⟩ <;> simp [initSt, allIdx]

/-- C3: finalize's capture-start filter keeps a matched (O, C) pair — both
endpoints — iff the C event's timestamp is at least the capture-start
cycle, where pairs are matched by walking the events in order with a
per-symbol-index LIFO of open indices (`matchPairs`); and every O event
left unmatched at the end of the walk (`leftoverOpens`) is kept. The
retained list is exactly the events at marked indices
(`retainedEvents cs l = selectIdx (finalizeInc cs l) l 0`, by definition). -/
theorem C3_filter_keeps_pairs_iff (l : List Event) (cs : Int) :
    (∀ p ∈ matchPairs l,
      (finalizeInc cs l p.1 = true ↔ cs ≤ p.2.2) ∧
      (finalizeInc cs l p.2.1 = true ↔ cs ≤ p.2.2)) ∧
    (∀ o ∈ leftoverOpens l, finalizeInc cs l o = true) := by
  constructor
  · intro p hp
    exact matchNew_marks cs l initSt WS_init p hp
  · intro o ho
    have hsh := filterRun_shape cs l initSt
    rw [finalizeInc, incEnd_eq]
    have : o ∈ allIdx (filterRun cs initSt l).openStacks := by
      rw [hsh.1]
      exact ho
    have hc : (allIdx (filterRun cs initSt l).openStacks).contains o = true :=
      List.elem_iff.mpr this
    rw [hc]
    simp

/-- C3 witness: events `[O f0@0, O f0@1, C f0@2, C f0@3]` with capture
start 3. The LIFO matches (1, 2) — dropped, close at 2 < 3 — and (0, 3) —
kept, close at 3 ≥ 3. -/
theorem C3_witness :
    ((1, 2, (2 : Int)) ∈ matchPairs
      [⟨EType.O, 0, 0, none⟩, ⟨EType.O, 1, 0, none⟩,
       ⟨EType.C, 2, 0, some 1⟩, ⟨EType.C, 3, 0, some 0⟩] ∧
     (0, 3, (3 : Int)) ∈ matchPairs
      [⟨EType.O, 0, 0, none⟩, ⟨EType.O, 1, 0, none⟩,
       ⟨EType.C, 2, 0, some 1⟩, ⟨EType.C, 3, 0, some 0⟩]) ∧
    ((finalizeInc 3
        [⟨EType.O, 0, 0, none⟩, ⟨EType.O, 1, 0, none⟩,
         ⟨EType.C, 2, 0, some 1⟩, ⟨EType.C, 3, 0, some 0⟩] 1 = true ↔
        (3 : Int) ≤ 2) ∧
     (finalizeInc 3
        [⟨EType.O, 0, 0, none⟩, ⟨EType.O, 1, 0, none⟩,
         ⟨EType.C, 2, 0, some 1⟩, ⟨EType.C, 3, 0, some 0⟩] 0 = true ↔
        (3 : Int) ≤ 3)) :=
  ⟨⟨by decide, by decide⟩,
   ⟨((C3_filter_keeps_pairs_iff
        [⟨EType.O, 0, 0, none⟩, ⟨EType.O, 1, 0, none⟩,
         ⟨EType.C, 2, 0, some 1⟩, ⟨EType.C, 3, 0, some 0⟩] 3).1
      (1, 2, (2 : Int)) (by decide)).1,
    ((C3_filter_keeps_pairs_iff
        [⟨EType.O, 0, 0, none⟩, ⟨EType.O, 1, 0, none⟩,
         ⟨EType.C, 2, 0, some 1⟩, ⟨EType.C, 3, 0, some 0⟩] 3).1
      (0, 3, (3 : Int)) (by decide)).1⟩⟩

/-! ### C5 -/

/-- Re-walking the retained events with a per-frame depth counter never
underflows: the `bad` component of the fold is left unchanged, provided
the depth counter matches the number of retained opens on each stack. -/
lemma rewalk_no_underflow (cs : Int) :
    ∀ (l : List Event) (st : FilterSt) (d : Nat → Nat) (b : Nat),
      WS st →
      (∀ f, d f = ((stackOf st.openStacks f).filter
          (fun j => incEnd (filterRun cs st l) j)).length) →
      (List.foldl rewalkStep (d, b)
        (selectIdx (incEnd (filterRun cs st l)) l st.pos)).2 = b
  | [], _, _, _, _, _ => rfl
  | e :: rest, st, d, b, hws, hd => by
    have hws' := WS_step cs e hws
    have hrun : filterRun cs st (e :: rest) =
        filterRun cs (filterStep cs st e) rest := rfl
    have hsel : selectIdx (incEnd (filterRun cs st (e :: rest))) (e :: rest)
        st.pos =
        if incEnd (filterRun cs (filterStep cs st e) rest) st.pos
        then e :: selectIdx (incEnd (filterRun cs (filterStep cs st e) rest))
          rest (st.pos + 1)
        else selectIdx (incEnd (filterRun cs (filterStep cs st e) rest))
          rest (st.pos + 1) := by
      rw [selectIdx, hrun]
    rw [hsel]
    rw [hrun] at hd
    cases he : e.type with
    | O =>
      have hos : (filterStep cs st e).openStacks =
          setStack st.openStacks e.frame
            (st.pos :: stackOf st.openStacks e.frame) := by
        simp [filterStep, stacksStep, he]
      by_cases hg : incEnd (filterRun cs (filterStep cs st e) rest) st.pos = true
      · rw [if_pos hg, List.foldl_cons]
        have hstep : rewalkStep (d, b) e =
            (Function.update d e.frame (d e.frame + 1), b) := by
          simp [rewalkStep, he]
        rw [hstep]
        refine rewalk_no_underflow cs rest (filterStep cs st e) _ b hws' ?_
        intro f
        by_cases hf : f = e.frame
        · subst hf
          rw [Function.update_same, hos, stackOf_setStack_self, List.filter_cons,
            hd e.frame]
          simp [hg]
        · rw [Function.update_noteq hf, hos, stackOf_setStack_other _ _ hf, hd f]
      · rw [if_neg (by simpa using hg)]
        refine rewalk_no_underflow cs rest (filterStep cs st e) d b hws' ?_
        intro f
        by_cases hf : f = e.frame
        · subst hf
          rw [hos, stackOf_setStack_self, List.filter_cons, hd e.frame]
          simp only [Bool.not_eq_true] at hg
          simp [hg]
        · rw [hos, stackOf_setStack_other _ _ hf, hd f]
    | C =>
      cases hl : lookupStack st.openStacks e.frame with
      | none =>
        have hos : (filterStep cs st e).openStacks = st.openStacks := by
          simp [filterStep, stacksStep, he, hl]
        have hic : (filterStep cs st e).inc = st.inc := by
          simp [filterStep, incStep, he, hl]
        have hg : incEnd (filterRun cs (filterStep cs st e) rest) st.pos = false := by
          have hu := untouched cs rest (filterStep cs st e) st.pos
            (by rw [hic]; exact hws.hi st.pos le_rfl)
            (by
              rw [hos]
              intro hmem
              exact absurd (hws.lt st.pos hmem) (lt_irrefl _))
            (by show st.pos < st.pos + 1; omega)
          exact incEnd_false_of hu.1 hu.2
        rw [if_neg (by simp [hg])]
        refine rewalk_no_underflow cs rest (filterStep cs st e) d b hws' ?_
        intro f
        rw [hos, hd f]
      | some s =>
        cases s with
        | nil =>
          have hos : (filterStep cs st e).openStacks = st.openStacks := by
            simp [filterStep, stacksStep, he, hl]
          have hic : (filterStep cs st e).inc = st.inc := by
            simp [filterStep, incStep, he, hl]
          have hg : incEnd (filterRun cs (filterStep cs st e) rest) st.pos
              = false := by
            have hu := untouched cs rest (filterStep cs st e) st.pos
              (by rw [hic]; exact hws.hi st.pos le_rfl)
              (by
                rw [hos]
                intro hmem
                exact absurd (hws.lt st.pos hmem) (lt_irrefl _))
              (by show st.pos < st.pos + 1; omega)
            exact incEnd_false_of hu.1 hu.2
          rw [if_neg (by simp [hg])]
          refine rewalk_no_underflow cs rest (filterStep cs st e) d b hws' ?_
          intro f
          rw [hos, hd f]
        | cons o r =>
          have hos : (filterStep cs st e).openStacks =
              setStack st.openStacks e.frame r := by
            simp [filterStep, stacksStep, he, hl]
          have hic : (filterStep cs st e).inc = if cs ≤ e.«at»
              then (fun j => st.inc j || j == o || j == st.pos)
              else st.inc := by
            simp [filterStep, incStep, he, hl]
          have hsof : stackOf st.openStacks e.frame = o :: r := by
            rw [stackOf, hl]; rfl
          have homem : o ∈ allIdx st.openStacks :=
            mem_allIdx_of_lookup hl o (List.mem_cons_self o r)
          by_cases hcs : cs ≤ e.«at»
          · have hoT : incEnd (filterRun cs (filterStep cs st e) rest) o
                = true := by
              refine incEnd_true_of_inc (inc_mono cs rest (filterStep cs st e) o ?_)
              rw [hic, if_pos hcs]
              simp
            have hpT : incEnd (filterRun cs (filterStep cs st e) rest) st.pos
                = true := by
              refine incEnd_true_of_inc
                (inc_mono cs rest (filterStep cs st e) st.pos ?_)
              rw [hic, if_pos hcs]
              simp
            rw [if_pos hpT, List.foldl_cons]
            have hdf : d e.frame =
                ((o :: r).filter
                  (fun j => incEnd (filterRun cs (filterStep cs st e) rest) j)).length := by
              rw [hd e.frame, hsof]
            have hdpos : d e.frame ≠ 0 := by
              rw [hdf, List.filter_cons, hoT]
              simp
            have hstep : rewalkStep (d, b) e =
                (Function.update d e.frame (d e.frame - 1), b) := by
              simp only [rewalkStep, he]
              rw [if_neg (by simpa using hdpos)]
            rw [hstep]
            refine rewalk_no_underflow cs rest (filterStep cs st e) _ b hws' ?_
            intro f
            by_cases hf : f = e.frame
            · subst hf
              rw [Function.update_same, hos, stackOf_setStack_self, hdf,
                List.filter_cons, hoT]
              simp
            · rw [Function.update_noteq hf, hos, stackOf_setStack_other _ _ hf,
                hd f]
          · have hperm := allIdx_pop_perm st.openStacks e.frame o r hws.keysNd hl
            have hnd' : (o :: allIdx (setStack st.openStacks e.frame r)).Nodup :=
              (hperm.nodup_iff).mp hws.nd
            have honot : o ∉ allIdx (setStack st.openStacks e.frame r) :=
              (List.nodup_cons.mp hnd').1
            have hsub : ∀ j ∈ allIdx (setStack st.openStacks e.frame r),
                j ∈ allIdx st.openStacks := by
              intro j hj
              exact (hperm.mem_iff).mpr (List.mem_cons_of_mem o hj)
            have hoF : incEnd (filterRun cs (filterStep cs st e) rest) o
                = false := by
              have hu := untouched cs rest (filterStep cs st e) o
                (by rw [hic, if_neg hcs]; exact hws.incFalse o homem)
                (by rw [hos]; exact honot)
                (by
                  show o < st.pos + 1
                  have := hws.lt o homem
                  omega)
              exact incEnd_false_of hu.1 hu.2
            have hpF : incEnd (filterRun cs (filterStep cs st e) rest) st.pos
                = false := by
              have hu := untouched cs rest (filterStep cs st e) st.pos
                (by rw [hic, if_neg hcs]; exact hws.hi st.pos le_rfl)
                (by
                  rw [hos]
                  intro hmem
                  exact absurd (hws.lt st.pos (hsub st.pos hmem)) (lt_irrefl _))
                (by show st.pos < st.pos + 1; omega)
              exact incEnd_false_of hu.1 hu.2
            rw [if_neg (by simp [hpF])]
            refine rewalk_no_underflow cs rest (filterStep cs st e) d b hws' ?_
            intro f
            by_cases hf : f = e.frame
            · subst hf
              rw [hos, stackOf_setStack_self, hd e.frame, hsof,
                List.filter_cons, hoF]
              simp
            · rw [hos, stackOf_setStack_other _ _ hf, hd f]

/-- C5: after finalize, the retained event list is balanced modulo trailing
unmatched opens — walking it in order with a per-symbol-index LIFO depth
counter meets zero unmatched closes. -/
theorem C5_finalized_balanced (cs : Int) (t : Trace) :
    unmatchedCloses (finalizeTrace cs t).events = 0 := by
  have h := rewalk_no_underflow cs (sortEvents t.events) initSt
    (fun _ => 0) 0 WS_init (fun _ => rfl)
  exact h

/-! ### C8 -/

lemma rewalk_bad_mono :
    ∀ (l : List Event) (s : (Nat → Nat) × Nat),
      s.2 ≤ (List.foldl rewalkStep s l).2
  | [], _ => le_rfl
  | e :: rest, s => by
    rw [List.foldl_cons]
    refine le_trans ?_ (rewalk_bad_mono rest (rewalkStep s e))
    obtain ⟨d, bad⟩ := s
    have h2 : (rewalkStep (d, bad) e).2 = bad ∨
        (rewalkStep (d, bad) e).2 = bad + 1 := by
      cases he : e.type with
      | O =>
        have hr : rewalkStep (d, bad) e =
            (Function.update d e.frame (d e.frame + 1), bad) := by
          simp [rewalkStep, he]
        rw [hr]
        exact Or.inl rfl
      | C =>
        by_cases hz : d e.frame = 0
        · have hr : rewalkStep (d, bad) e = (d, bad + 1) := by
            simp [rewalkStep, he, hz]
          rw [hr]
          exact Or.inr rfl
        · have hr : rewalkStep (d, bad) e =
              (Function.update d e.frame (d e.frame - 1), bad) := by
            simp [rewalkStep, he, hz]
          rw [hr]
          exact Or.inl rfl
    rcases h2 with h2 | h2
    · rw [h2]
    · rw [h2]
      omega

/-- When the walk meets no unmatched close and every close's timestamp
reaches the capture start, every stacked index and every index of the list
ends up marked for inclusion. -/
lemma all_marked (cs : Int) :
    ∀ (l : List Event) (st : FilterSt) (d : Nat → Nat),
      WS st →
      (∀ f, d f = (stackOf st.openStacks f).length) →
      (List.foldl rewalkStep (d, 0) l).2 = 0 →
      (∀ e ∈ l, e.type = EType.C → cs ≤ e.«at») →
      ∀ j, (j ∈ allIdx st.openStacks ∨ (st.pos ≤ j ∧ j < st.pos + l.length)) →
        incEnd (filterRun cs st l) j = true
  | [], st, d, hws, hd, hbal, hC, j, hj => by
    rcases hj with hj | hj
    · have hc : (allIdx st.openStacks).contains j = true := List.elem_iff.mpr hj
      show (st.inc j || (allIdx st.openStacks).contains j) = true
      rw [hc]
      simp
    · simp only [List.length_nil] at hj
      omega
  | e :: rest, st, d, hws, hd, hbal, hC, j, hj => by
    have hws' := WS_step cs e hws
    have hrun : filterRun cs st (e :: rest) =
        filterRun cs (filterStep cs st e) rest := rfl
    have hC' : ∀ x ∈ rest, x.type = EType.C → cs ≤ x.«at» :=
      fun x hx => hC x (List.mem_cons_of_mem e hx)
    rw [hrun]
    cases he : e.type with
    | O =>
      have hos : (filterStep cs st e).openStacks =
          setStack st.openStacks e.frame
            (st.pos :: stackOf st.openStacks e.frame) := by
        simp [filterStep, stacksStep, he]
      have hperm := allIdx_push_perm st.openStacks e.frame st.pos hws.keysNd
      have hstep : rewalkStep (d, 0) e =
          (Function.update d e.frame (d e.frame + 1), 0) := by
        simp [rewalkStep, he]
      rw [List.foldl_cons, hstep] at hbal
      have hd' : ∀ f, Function.update d e.frame (d e.frame + 1) f =
          (stackOf (filterStep cs st e).openStacks f).length := by
        intro f
        by_cases hf : f = e.frame
        · subst hf
          rw [Function.update_same, hos, stackOf_setStack_self]
          simp [hd e.frame]
        · rw [Function.update_noteq hf, hos, stackOf_setStack_other _ _ hf, hd f]
      have ih := all_marked cs rest (filterStep cs st e) _ hws' hd' hbal hC'
      rcases hj with hj | hj
      · refine ih j (Or.inl ?_)
        rw [hos]
        exact (hperm.mem_iff).mpr (List.mem_cons_of_mem _ hj)
      · by_cases hjp : j = st.pos
        · subst hjp
          refine ih st.pos (Or.inl ?_)
          rw [hos]
          exact (hperm.mem_iff).mpr (List.mem_cons_self _ _)
        · refine ih j (Or.inr ?_)
          show st.pos + 1 ≤ j ∧ j < st.pos + 1 + rest.length
          simp only [List.length_cons] at hj
          omega
    | C =>
      cases hl : lookupStack st.openStacks e.frame with
      | none =>
        exfalso
        have hso : stackOf st.openStacks e.frame = [] := by
          rw [stackOf, hl]; rfl
        have hdz : d e.frame = 0 := by rw [hd, hso]; rfl
        have hstep : rewalkStep (d, 0) e = (d, 1) := by
          simp [rewalkStep, he, hdz]
        rw [List.foldl_cons, hstep] at hbal
        have := rewalk_bad_mono rest (d, 1)
        omega
      | some s =>
        cases s with
        | nil =>
          exfalso
          have hso : stackOf st.openStacks e.frame = [] := by
            rw [stackOf, hl]; rfl
          have hdz : d e.frame = 0 := by rw [hd, hso]; rfl
          have hstep : rewalkStep (d, 0) e = (d, 1) := by
            simp [rewalkStep, he, hdz]
          rw [List.foldl_cons, hstep] at hbal
          have := rewalk_bad_mono rest (d, 1)
          omega
        | cons o r =>
          have hcs : cs ≤ e.«at» := hC e (List.mem_cons_self e rest) he
          have hos : (filterStep cs st e).openStacks =
              setStack st.openStacks e.frame r := by
            simp [filterStep, stacksStep, he, hl]
          have hic : (filterStep cs st e).inc = if cs ≤ e.«at»
              then (fun j => st.inc j || j == o || j == st.pos)
              else st.inc := by
            simp [filterStep, incStep, he, hl]
          have hsof : stackOf st.openStacks e.frame = o :: r := by
            rw [stackOf, hl]; rfl
          have hperm := allIdx_pop_perm st.openStacks e.frame o r hws.keysNd hl
          have hdz : d e.frame = r.length + 1 := by
            rw [hd, hsof]
            rfl
          have hstep : rewalkStep (d, 0) e =
              (Function.update d e.frame (d e.frame - 1), 0) := by
            simp only [rewalkStep, he]
            rw [if_neg (by simp [hdz])]
          rw [List.foldl_cons, hstep] at hbal
          have hd' : ∀ f, Function.update d e.frame (d e.frame - 1) f =
              (stackOf (filterStep cs st e).openStacks f).length := by
            intro f
            by_cases hf : f = e.frame
            · subst hf
              rw [Function.update_same, hos, stackOf_setStack_self, hdz]
              simp
            · rw [Function.update_noteq hf, hos, stackOf_setStack_other _ _ hf,
                hd f]
          have ih := all_marked cs rest (filterStep cs st e) _ hws' hd' hbal hC'
          have hoT : incEnd (filterRun cs (filterStep cs st e) rest) o = true := by
            refine incEnd_true_of_inc (inc_mono cs rest (filterStep cs st e) o ?_)
            rw [hic, if_pos hcs]
            simp
          have hpT : incEnd (filterRun cs (filterStep cs st e) rest) st.pos
              = true := by
            refine incEnd_true_of_inc
              (inc_mono cs rest (filterStep cs st e) st.pos ?_)
            rw [hic, if_pos hcs]
            simp
          rcases hj with hj | hj
          · by_cases hjo : j = o
            · subst hjo
              exact hoT
            · refine ih j (Or.inl ?_)
              rw [hos]
              rcases List.mem_cons.mp ((hperm.mem_iff).mp hj) with hj | hj
              · exact absurd hj hjo
              · exact hj
          · by_cases hjp : j = st.pos
            · subst hjp
              exact hpT
            · refine ih j (Or.inr ?_)
              show st.pos + 1 ≤ j ∧ j < st.pos + 1 + rest.length
              simp only [List.length_cons] at hj
              omega

/-- Every C event kept by the capture-start filter has `at ≥ cs`. -/
lemma retained_closes_ge (cs : Int) :
    ∀ (l : List Event) (st : FilterSt), WS st →
      ∀ e ∈ selectIdx (incEnd (filterRun cs st l)) l st.pos,
        e.type = EType.C → cs ≤ e.«at»
  | [], _, _, e, he => by simp [selectIdx] at he
  | e :: rest, st, hws, x, hx => by
    have hws' := WS_step cs e hws
    have hrun : filterRun cs st (e :: rest) =
        filterRun cs (filterStep cs st e) rest := rfl
    have hsel : selectIdx (incEnd (filterRun cs st (e :: rest))) (e :: rest)
        st.pos =
        if incEnd (filterRun cs (filterStep cs st e) rest) st.pos
        then e :: selectIdx (incEnd (filterRun cs (filterStep cs st e) rest))
          rest (st.pos + 1)
        else selectIdx (incEnd (filterRun cs (filterStep cs st e) rest))
          rest (st.pos + 1) := by
      rw [selectIdx, hrun]
    rw [hsel] at hx
    by_cases hg : incEnd (filterRun cs (filterStep cs st e) rest) st.pos = true
    · rw [if_pos hg] at hx
      rcases List.mem_cons.mp hx with hx | hx
      · subst hx
        intro hty
        by_contra hcs
        -- with the close dropped or unmatched, position st.pos stays unmarked
        have hgF : incEnd (filterRun cs (filterStep cs st x) rest) st.pos
            = false := by
          cases hl : lookupStack st.openStacks x.frame with
          | none =>
            have hos : (filterStep cs st x).openStacks = st.openStacks := by
              simp [filterStep, stacksStep, hty, hl]
            have hic : (filterStep cs st x).inc = st.inc := by
              simp [filterStep, incStep, hty, hl]
            have hu := untouched cs rest (filterStep cs st x) st.pos
              (by rw [hic]; exact hws.hi st.pos le_rfl)
              (by
                rw [hos]
                intro hmem
                exact absurd (hws.lt st.pos hmem) (lt_irrefl _))
              (by show st.pos < st.pos + 1; omega)
            exact incEnd_false_of hu.1 hu.2
          | some s =>
            cases s with
            | nil =>
              have hos : (filterStep cs st x).openStacks = st.openStacks := by
                simp [filterStep, stacksStep, hty, hl]
              have hic : (filterStep cs st x).inc = st.inc := by
                simp [filterStep, incStep, hty, hl]
              have hu := untouched cs rest (filterStep cs st x) st.pos
                (by rw [hic]; exact hws.hi st.pos le_rfl)
                (by
                  rw [hos]
                  intro hmem
                  exact absurd (hws.lt st.pos hmem) (lt_irrefl _))
                (by show st.pos < st.pos + 1; omega)
              exact incEnd_false_of hu.1 hu.2
            | cons o r =>
              have hos : (filterStep cs st x).openStacks =
                  setStack st.openStacks x.frame r := by
                simp [filterStep, stacksStep, hty, hl]
              have hic : (filterStep cs st x).inc = if cs ≤ x.«at»
                  then (fun j => st.inc j || j == o || j == st.pos)
                  else st.inc := by
                simp [filterStep, incStep, hty, hl]
              have hperm := allIdx_pop_perm st.openStacks x.frame o r
                hws.keysNd hl
              have hsub : ∀ j ∈ allIdx (setStack st.openStacks x.frame r),
                  j ∈ allIdx st.openStacks := by
                intro j hj
                exact (hperm.mem_iff).mpr (List.mem_cons_of_mem o hj)
              have hu := untouched cs rest (filterStep cs st x) st.pos
                (by rw [hic, if_neg hcs]; exact hws.hi st.pos le_rfl)
                (by
                  rw [hos]
                  intro hmem
                  exact absurd (hws.lt st.pos (hsub st.pos hmem)) (lt_irrefl _))
                (by show st.pos < st.pos + 1; omega)
              exact incEnd_false_of hu.1 hu.2
        rw [hg] at hgF
        cases hgF
      · exact retained_closes_ge cs rest (filterStep cs st e) hws' x hx
    · rw [if_neg hg] at hx
      exact retained_closes_ge cs rest (filterStep cs st e) hws' x hx

lemma selectIdx_all (g : Nat → Bool) :
    ∀ (l : List Event) (pos : Nat),
      (∀ j, pos ≤ j → j < pos + l.length → g j = true) →
      selectIdx g l pos = l
  | [], _, _ => rfl
  | e :: rest, pos, h => by
    rw [selectIdx, if_pos (h pos le_rfl (by simp))]
    rw [selectIdx_all g rest (pos + 1) (fun j h1 h2 => h j (by omega)
      (by simp only [List.length_cons]; omega))]

lemma selectIdx_sublist (g : Nat → Bool) :
    ∀ (l : List Event) (pos : Nat), (selectIdx g l pos).Sublist l
  | [], _ => List.Sublist.refl []
  | e :: rest, pos => by
    rw [selectIdx]
    split
    · exact (selectIdx_sublist g rest (pos + 1)).cons₂ e
    · exact (selectIdx_sublist g rest (pos + 1)).cons e

instance : IsTrans Event (fun a b => evLE a b = true) := by
  constructor
  intro a b c hab hbc
  simp only [evLE, Bool.or_eq_true, Bool.and_eq_true, decide_eq_true_eq,
    beq_iff_eq] at hab hbc ⊢
  rcases hab with hab | ⟨hab, habT⟩
  · rcases hbc with hbc | ⟨hbc, _⟩
    · exact Or.inl (lt_trans hab hbc)
    · exact Or.inl (by omega)
  · rcases hbc with hbc | ⟨hbc, hbcT⟩
    · exact Or.inl (by omega)
    · refine Or.inr ⟨by omega, ?_⟩
      rcases habT with h | h
      · rcases hbcT with h' | h'
        · exact Or.inl (h.trans h')
        · exact Or.inr (h.trans h')
      · exact Or.inr h

instance : IsTotal Event (fun a b => evLE a b = true) := by
  constructor
  intro a b
  simp only [evLE, Bool.or_eq_true, Bool.and_eq_true, decide_eq_true_eq,
    beq_iff_eq]
  rcases lt_trichotomy a.«at» b.«at» with h | h | h
  · exact Or.inl (Or.inl h)
  · cases ha : a.type <;> cases hb : b.type
    · exact Or.inl (Or.inr ⟨h, Or.inl rfl⟩)
    · exact Or.inl (Or.inr ⟨h, Or.inr rfl⟩)
    · exact Or.inr (Or.inr ⟨h.symm, Or.inr rfl⟩)
    · exact Or.inl (Or.inr ⟨h, Or.inl rfl⟩)
  · exact Or.inr (Or.inl h)

lemma sortEvents_sorted (l : List Event) :
    (sortEvents l).Pairwise (fun a b => evLE a b = true) :=
  List.sorted_insertionSort (fun a b => evLE a b = true) l

lemma sortEvents_of_sorted {l : List Event}
    (h : l.Pairwise (fun a b => evLE a b = true)) : sortEvents l = l :=
  List.Sorted.insertionSort_eq h

/-- C8: finalize is idempotent — re-running `finalizeTrace` with the same
capture-start cycle on an already-finalized trace changes neither the
event list nor `endValue`. -/
theorem C8_finalize_idempotent (cs : Int) (t : Trace) :
    finalizeTrace cs (finalizeTrace cs t) = finalizeTrace cs t := by
  have hsort : (sortEvents t.events).Pairwise (fun a b => evLE a b = true) :=
    sortEvents_sorted t.events
  have hsubl : (retainedEvents cs (sortEvents t.events)).Sublist
      (sortEvents t.events) :=
    selectIdx_sublist _ (sortEvents t.events) 0
  have hessorted : (retainedEvents cs (sortEvents t.events)).Pairwise
      (fun a b => evLE a b = true) :=
    List.Pairwise.sublist hsubl hsort
  have hsort2 : sortEvents (retainedEvents cs (sortEvents t.events)) =
      retainedEvents cs (sortEvents t.events) :=
    sortEvents_of_sorted hessorted
  have hbal : (List.foldl rewalkStep (fun _ => 0, 0)
      (retainedEvents cs (sortEvents t.events))).2 = 0 :=
    rewalk_no_underflow cs (sortEvents t.events) initSt (fun _ => 0) 0
      WS_init (fun _ => rfl)
  have hC : ∀ e ∈ retainedEvents cs (sortEvents t.events),
      e.type = EType.C → cs ≤ e.«at» :=
    retained_closes_ge cs (sortEvents t.events) initSt WS_init
  have hmark : ∀ j, j < (retainedEvents cs (sortEvents t.events)).length →
      finalizeInc cs (retainedEvents cs (sortEvents t.events)) j = true := by
    intro j hj
    exact all_marked cs (retainedEvents cs (sortEvents t.events)) initSt
      (fun _ => 0) WS_init (fun _ => rfl) hbal hC j
      (Or.inr ⟨Nat.zero_le j, by simpa [initSt] using hj⟩)
  have hsel : retainedEvents cs (retainedEvents cs (sortEvents t.events)) =
      retainedEvents cs (sortEvents t.events) :=
    selectIdx_all _ (retainedEvents cs (sortEvents t.events)) 0
      (fun j _ h2 => hmark j (by simpa using h2))
  have h1 : finalizeTrace cs t =
      ⟨retainedEvents cs (sortEvents t.events),
       if (retainedEvents cs (sortEvents t.events)).isEmpty then t.endValue
       else maxAt (retainedEvents cs (sortEvents t.events))⟩ := rfl
  rw [h1]
  show (⟨retainedEvents cs (sortEvents (retainedEvents cs (sortEvents t.events))),
        if (retainedEvents cs
            (sortEvents (retainedEvents cs (sortEvents t.events)))).isEmpty
        then (if (retainedEvents cs (sortEvents t.events)).isEmpty
              then t.endValue
              else maxAt (retainedEvents cs (sortEvents t.events)))
        else maxAt (retainedEvents cs
          (sortEvents (retainedEvents cs (sortEvents t.events))))⟩ : Trace) = _
  rw [hsort2, hsel]
  by_cases hemp : (retainedEvents cs (sortEvents t.events)).isEmpty
  · simp [hemp]
  · simp [hemp]

end GBFlame
